import Mathlib

/-!
Verification development for the unstructured-text extraction core of the
job-hunter repository (`src/utils.rs`, `src/data.rs`, `src/scraper.rs`,
`src/db/mod.rs`).

The Rust functions are shallowly embedded as executable Lean definitions over
`List Char` / `String`, with machine integers modelled as `Int` (with explicit
saturation where Rust casts saturate) and `f64` values modelled exactly (see
`F64` below).  Regex scanning (`regex` crate, leftmost-first semantics with
greedy quantifiers) is embedded as explicit scanning functions specialised to
the two patterns the repository compiles.
-/

/- ===================== Section A: characters and strings ===================== -/

/-- Whitespace test used by the embedding of Rust `str::trim`.  The
repository's inputs only ever contain ASCII whitespace; Rust's full
Unicode `White_Space` class is modelled by its ASCII fragment. -/
def isWsChar (c : Char) : Bool :=
  c.toNat = 32 || c.toNat = 9 || c.toNat = 10 || c.toNat = 13

/-- Embedding of Rust `str::trim` on character lists: drop whitespace from
both ends. -/
def trimC (l : List Char) : List Char :=
  ((l.dropWhile isWsChar).reverse.dropWhile isWsChar).reverse

/-- Embedding of Rust `char::to_uppercase` (the `first.to_uppercase()` call in
`format_comma_separated`).  For ASCII — the only characters exercised by the
repository — Rust's `to_uppercase` yields the single uppercased character;
caseless characters map to themselves. -/
def rustToUppercase (c : Char) : List Char :=
  if 97 ≤ c.toNat ∧ c.toNat ≤ 122 then [Char.ofNat (c.toNat - 32)] else [c]

/-- Embedding of Rust `str::split(sep)` on character lists: split at every
occurrence of `sep`, keeping empty segments (so a trailing separator yields a
trailing empty segment, and the empty string yields one empty segment). -/
def splitChar (sep : Char) : List Char → List (List Char)
  | [] => [[]]
  | c :: rest =>
    if c = sep then [] :: splitChar sep rest
    else
      match splitChar sep rest with
      | [] => [[c]]
      | h :: t => (c :: h) :: t

/-- Embedding of Rust `Vec::join(sep)`: concatenate the elements with `sep`
between consecutive elements; the empty vector joins to the empty string. -/
def joinSep (sep : List Char) : List (List Char) → List Char
  | [] => []
  | [a] => a
  | a :: b :: rest => a ++ sep ++ joinSep sep (b :: rest)

/-- The per-entry closure inside `format_comma_separated` (src/utils.rs:20-26):
trim the entry, then uppercase its first character, chaining the remaining
characters unchanged; an empty entry stays empty. -/
def formatEntry (l : List Char) : List Char :=
  match trimC l with
  | [] => []
  | first :: rest => rustToUppercase first ++ rest

/-- Embedding of `format_comma_separated` (src/utils.rs:18-29): split the
input on commas, apply `formatEntry` to every segment, and rejoin with the
literal separator `", "`. -/
def format_comma_separated (s : String) : String :=
  ⟨joinSep [',', ' '] ((splitChar ',' s.data).map formatEntry)⟩

/-- Embedding of `format_location` (src/utils.rs:31-38): keep the non-blank
fragments of `[city, region, country]`, trim each, and join with `", "`. -/
def format_location (city region country : String) : String :=
  ⟨joinSep [',', ' ']
    (([city.data, region.data, country.data].filter
        (fun s => !(trimC s).isEmpty)).map trimC)⟩

example : format_comma_separated "  python, sql,Go " = "Python, Sql, Go" := by decide

example : format_location "" "Remote" "USA" = "Remote, USA" := by decide

example : format_location " , x" "" "" = ", x" := by decide

example : splitChar ',' "a,,b".data = [['a'], [], ['b']] := by decide

/- ===================== Section B: string lemmas ===================== -/

theorem char_eq_of_toNat_eq {c d : Char} (h : c.toNat = d.toNat) : c = d := by
  simp only [Char.toNat] at h
  apply Char.eq_of_val_eq
  apply UInt32.ext
  omega

theorem charOfNat_toNat {n : Nat} (h : n < 55296) : (Char.ofNat n).toNat = n := by
  have hv : n.isValidChar := Or.inl h
  simp [Char.ofNat, hv, Char.ofNatAux, Char.toNat, UInt32.toNat, BitVec.toNat_ofNatLt]

theorem dropWhile_head_false {p : Char → Bool} {l : List Char} {c : Char} {rest : List Char}
    (h : l.dropWhile p = c :: rest) : p c = false := by
  induction l with
  | nil => simp at h
  | cons a t ih =>
    rw [List.dropWhile_cons] at h
    by_cases hp : p a
    · simp [hp] at h; exact ih h
    · simp [hp] at h; rw [← h.1]; simpa using hp

theorem dropWhile_head?_false {p : Char → Bool} {l : List Char} {c : Char}
    (h : (l.dropWhile p).head? = some c) : p c = false := by
  cases hd : l.dropWhile p with
  | nil => rw [hd] at h; simp at h
  | cons a t =>
    rw [hd] at h
    simp at h
    exact h ▸ dropWhile_head_false hd

theorem dropWhile_eq_append (p : Char → Bool) (l : List Char) :
    ∃ w, l = w ++ l.dropWhile p := by
  induction l with
  | nil => exact ⟨[], rfl⟩
  | cons a t ih =>
    rw [List.dropWhile_cons]
    by_cases hp : p a
    · obtain ⟨w, hw⟩ := ih
      exact ⟨a :: w, by simp [hp, ← hw]⟩
    · exact ⟨[], by simp [hp]⟩

theorem mem_dropWhile {p : Char → Bool} {l : List Char} {c : Char}
    (h : c ∈ l.dropWhile p) : c ∈ l :=
  (List.dropWhile_sublist p).mem h

theorem mem_trimC {l : List Char} {c : Char} (h : c ∈ trimC l) : c ∈ l := by
  unfold trimC at h
  rw [List.mem_reverse] at h
  have h2 := mem_dropWhile h
  rw [List.mem_reverse] at h2
  exact mem_dropWhile h2

theorem trimC_head?_false {l : List Char} {c : Char}
    (h : (trimC l).head? = some c) : isWsChar c = false := by
  unfold trimC at h
  rw [List.head?_reverse] at h
  set A := l.dropWhile isWsChar with hA
  set B := A.reverse.dropWhile isWsChar with hB
  obtain ⟨w, hw⟩ := dropWhile_eq_append isWsChar A.reverse
  have hBne : B ≠ [] := by
    intro hnil
    rw [hnil] at h; simp at h
  have h1 : A.reverse.getLast? = some c := by
    rw [hw, List.getLast?_append, h]
    rfl
  rw [List.getLast?_reverse] at h1
  exact dropWhile_head?_false h1

theorem trimC_getLast?_false {l : List Char} {c : Char}
    (h : (trimC l).getLast? = some c) : isWsChar c = false := by
  unfold trimC at h
  rw [List.getLast?_reverse] at h
  exact dropWhile_head?_false h

theorem dropWhile_eq_self_of_head {p : Char → Bool} {l : List Char}
    (h : ∀ c, l.head? = some c → p c = false) : l.dropWhile p = l := by
  cases l with
  | nil => rfl
  | cons a t =>
    have := h a (by rfl)
    rw [List.dropWhile_cons]
    simp [this]

theorem trimC_eq_self {l : List Char}
    (hh : ∀ c, l.head? = some c → isWsChar c = false)
    (hl : ∀ c, l.getLast? = some c → isWsChar c = false) : trimC l = l := by
  unfold trimC
  rw [dropWhile_eq_self_of_head hh]
  rw [dropWhile_eq_self_of_head (by intro c hc; rw [List.head?_reverse] at hc; exact hl c hc)]
  exact List.reverse_reverse l

theorem trimC_idem (l : List Char) : trimC (trimC l) = trimC l :=
  trimC_eq_self (fun _ h => trimC_head?_false h) (fun _ h => trimC_getLast?_false h)

theorem trimC_cons_ws {c : Char} (l : List Char) (h : isWsChar c = true) :
    trimC (c :: l) = trimC l := by
  unfold trimC
  rw [List.dropWhile_cons]
  simp [h]

theorem rustToUppercase_cases (c : Char) :
    ∃ d, rustToUppercase c = [d] ∧
      ((97 ≤ c.toNat ∧ c.toNat ≤ 122 ∧ d.toNat = c.toNat - 32) ∨
       (¬(97 ≤ c.toNat ∧ c.toNat ≤ 122) ∧ d = c)) := by
  unfold rustToUppercase
  by_cases h : 97 ≤ c.toNat ∧ c.toNat ≤ 122
  · refine ⟨Char.ofNat (c.toNat - 32), by simp [h], Or.inl ⟨h.1, h.2, ?_⟩⟩
    exact charOfNat_toNat (by omega)
  · exact ⟨c, by simp [h], Or.inr ⟨h, rfl⟩⟩

theorem rustToUppercase_not_ws {c d : Char} (hc : isWsChar c = false)
    (h : rustToUppercase c = [d]) : isWsChar d = false := by
  obtain ⟨e, he, hcase⟩ := rustToUppercase_cases c
  have hed : e = d := by rw [he] at h; simpa using h
  rw [hed] at hcase
  rcases hcase with ⟨h1, h2, h3⟩ | ⟨_, h4⟩
  · unfold isWsChar
    simp only [Bool.or_eq_false_iff, decide_eq_false_iff_not]
    omega
  · rw [h4]; exact hc

theorem rustToUppercase_ne_comma {c d : Char} (hc : c ≠ ',')
    (h : rustToUppercase c = [d]) : d ≠ ',' := by
  obtain ⟨e, he, hcase⟩ := rustToUppercase_cases c
  have hed : e = d := by rw [he] at h; simpa using h
  rw [hed] at hcase
  rcases hcase with ⟨h1, h2, h3⟩ | ⟨_, h4⟩
  · intro hd
    have h44 : d.toNat = 44 := by rw [hd]; rfl
    omega
  · rw [h4]; exact hc

theorem rustToUppercase_idem {c d : Char} (h : rustToUppercase c = [d]) :
    rustToUppercase d = [d] := by
  obtain ⟨e, he, hcase⟩ := rustToUppercase_cases c
  have hed : e = d := by rw [he] at h; simpa using h
  rw [hed] at hcase
  unfold rustToUppercase
  rcases hcase with ⟨h1, h2, h3⟩ | ⟨h1, h4⟩
  · have hno : ¬(97 ≤ d.toNat ∧ d.toNat ≤ 122) := by omega
    simp [hno]
  · subst h4
    simp [h1]

theorem formatEntry_nil : formatEntry [] = [] := rfl

theorem formatEntry_eq_nil {l : List Char} (htr : trimC l = []) :
    formatEntry l = [] := by
  unfold formatEntry
  rw [htr]

theorem formatEntry_eq_cons {l : List Char} {c : Char} {rest : List Char}
    (htr : trimC l = c :: rest) : formatEntry l = rustToUppercase c ++ rest := by
  unfold formatEntry
  rw [htr]

theorem formatEntry_trimC_eq (l : List Char) : trimC (formatEntry l) = formatEntry l := by
  cases htr : trimC l with
  | nil => rw [formatEntry_eq_nil htr]; rfl
  | cons c rest =>
    obtain ⟨d, hd, _⟩ := rustToUppercase_cases c
    have hfe : formatEntry l = d :: rest := by
      rw [formatEntry_eq_cons htr, hd]; rfl
    rw [hfe]
    have hcws : isWsChar c = false := trimC_head?_false (by rw [htr]; rfl)
    have hdws : isWsChar d = false := rustToUppercase_not_ws hcws hd
    apply trimC_eq_self
    · intro e he
      simp at he
      rw [← he]
      exact hdws
    · intro e he
      cases hrest : rest with
      | nil =>
        rw [hrest] at he
        simp at he
        rw [← he]; exact hdws
      | cons r rt =>
        rw [hrest, List.getLast?_cons_cons] at he
        have h2 : (trimC l).getLast? = some e := by
          rw [htr, hrest, List.getLast?_cons_cons]
          exact he
        exact trimC_getLast?_false h2

theorem formatEntry_idem (l : List Char) : formatEntry (formatEntry l) = formatEntry l := by
  cases htr : trimC l with
  | nil =>
    rw [formatEntry_eq_nil htr, formatEntry_nil]
  | cons c rest =>
    obtain ⟨d, hd, _⟩ := rustToUppercase_cases c
    have hfe : formatEntry l = d :: rest := by
      rw [formatEntry_eq_cons htr, hd]; rfl
    have htr2 : trimC (formatEntry l) = d :: rest := by
      rw [formatEntry_trimC_eq, hfe]
    rw [formatEntry_eq_cons htr2, rustToUppercase_idem hd, hfe]
    rfl

theorem formatEntry_cons_ws {a : Char} (l : List Char) (h : isWsChar a = true) :
    formatEntry (a :: l) = formatEntry l := by
  unfold formatEntry
  rw [trimC_cons_ws l h]

theorem formatEntry_comma_free {l : List Char} (h : ',' ∉ l) :
    ',' ∉ formatEntry l := by
  cases htr : trimC l with
  | nil => rw [formatEntry_eq_nil htr]; simp
  | cons c rest =>
    obtain ⟨d, hd, _⟩ := rustToUppercase_cases c
    have hfe : formatEntry l = d :: rest := by
      rw [formatEntry_eq_cons htr, hd]; rfl
    rw [hfe]
    intro hmem
    have hcl : c ∈ l := mem_trimC (by rw [htr]; exact List.mem_cons_self c rest)
    rcases List.mem_cons.mp hmem with hmem | hmem
    · exact rustToUppercase_ne_comma (fun hc => h (hc ▸ hcl)) hd hmem.symm
    · exact h (mem_trimC (by rw [htr]; exact List.mem_cons_of_mem c hmem))

theorem splitChar_ne_nil (sep : Char) (l : List Char) : splitChar sep l ≠ [] := by
  cases l with
  | nil => simp [splitChar]
  | cons c rest =>
    unfold splitChar
    by_cases h : c = sep
    · simp [h]
    · simp only [h, if_false]
      cases splitChar sep rest with
      | nil => simp
      | cons a t => simp

theorem mem_splitChar_not_mem {sep : Char} {l : List Char} :
    ∀ p ∈ splitChar sep l, sep ∉ p := by
  induction l with
  | nil =>
    intro p hp
    simp [splitChar] at hp
    simp [hp]
  | cons c rest ih =>
    intro p hp
    unfold splitChar at hp
    by_cases h : c = sep
    · simp only [h, if_true] at hp
      rcases List.mem_cons.mp hp with hp | hp
      · simp [hp]
      · exact ih p hp
    · simp only [h, if_false] at hp
      cases hsp : splitChar sep rest with
      | nil => exact absurd hsp (splitChar_ne_nil sep rest)
      | cons a t =>
        rw [hsp] at hp
        rcases List.mem_cons.mp hp with hp | hp
        · rw [hp]
          intro hmem
          rcases List.mem_cons.mp hmem with hmem | hmem
          · exact h hmem.symm
          · exact ih a (by rw [hsp]; exact List.mem_cons_self a t) hmem
        · exact ih p (by rw [hsp]; exact List.mem_cons_of_mem a hp)

theorem splitChar_no_sep {sep : Char} {l : List Char} (h : sep ∉ l) :
    splitChar sep l = [l] := by
  induction l with
  | nil => rfl
  | cons c rest ih =>
    unfold splitChar
    have hc : ¬ c = sep := fun hcs => h (hcs ▸ List.mem_cons_self c rest)
    simp only [hc, if_false]
    rw [ih (fun hm => h (List.mem_cons_of_mem c hm))]

theorem splitChar_cons_sep (sep : Char) (rest : List Char) :
    splitChar sep (sep :: rest) = [] :: splitChar sep rest := by
  rw [splitChar]
  simp

theorem splitChar_cons_ne (sep c : Char) (rest : List Char) (h : ¬ c = sep)
    (a : List Char) (u : List (List Char)) (hsp : splitChar sep rest = a :: u) :
    splitChar sep (c :: rest) = (c :: a) :: u := by
  rw [splitChar]
  simp only [h, if_false]
  rw [hsp]

theorem splitChar_append_sep (sep : Char) (x r : List Char) :
    splitChar sep (x ++ sep :: r) = splitChar sep x ++ splitChar sep r := by
  induction x with
  | nil =>
    rw [List.nil_append, splitChar_cons_sep]
    rfl
  | cons c t ih =>
    rw [List.cons_append]
    by_cases h : c = sep
    · subst h
      rw [splitChar_cons_sep, splitChar_cons_sep, ih, List.cons_append]
    · cases hsp : splitChar sep t with
      | nil => exact absurd hsp (splitChar_ne_nil sep t)
      | cons a u =>
        have h1 : splitChar sep (t ++ sep :: r) = a :: (u ++ splitChar sep r) := by
          rw [ih, hsp]
          rfl
        rw [splitChar_cons_ne sep c _ h _ _ h1, splitChar_cons_ne sep c t h _ _ hsp]
        rfl

theorem splitChar_joinSep (a : List Char) (l : List (List Char))
    (ha : ',' ∉ a) (hl : ∀ p ∈ l, ',' ∉ p) :
    splitChar ',' (joinSep [',', ' '] (a :: l)) = a :: l.map (fun p => ' ' :: p) := by
  induction l generalizing a with
  | nil => simpa [joinSep] using splitChar_no_sep ha
  | cons b t ih =>
    have hjoin : joinSep [',', ' '] (a :: b :: t) = a ++ ',' :: (' ' :: joinSep [',', ' '] (b :: t)) := by
      simp [joinSep]
    rw [hjoin, splitChar_append_sep, splitChar_no_sep ha]
    have hsp : splitChar ',' (' ' :: joinSep [',', ' '] (b :: t)) =
        (' ' :: b) :: t.map (fun p => ' ' :: p) := by
      unfold splitChar
      have hne : ¬ (' ' = ',') := by decide
      simp only [hne, if_false]
      rw [ih b (hl b (List.mem_cons_self b t)) (fun p hp => hl p (List.mem_cons_of_mem b hp))]
    rw [hsp]
    simp

theorem joinSep_head? (sep : List Char) (q : List Char) (qs : List (List Char)) (hq : q ≠ []) :
    (joinSep sep (q :: qs)).head? = q.head? := by
  cases qs with
  | nil => rfl
  | cons b t =>
    show (q ++ sep ++ joinSep sep (b :: t)).head? = q.head?
    rw [List.append_assoc, List.head?_append]
    cases hh : q.head? with
    | none => cases q with
      | nil => exact absurd rfl hq
      | cons x xs => simp at hh
    | some c => rfl

theorem joinSep_getLast? (sep : List Char) :
    ∀ (qs : List (List Char)) (q : List Char), qs.getLast? = some q → q ≠ [] →
    (joinSep sep qs).getLast? = q.getLast? := by
  intro qs
  induction qs with
  | nil => intro q hq; simp at hq
  | cons a t ih =>
    intro q hq hqne
    cases t with
    | nil =>
      simp at hq
      rw [hq]
      rfl
    | cons b u =>
      rw [List.getLast?_cons_cons] at hq
      show ((a ++ sep) ++ joinSep sep (b :: u)).getLast? = q.getLast?
      rw [List.getLast?_append]
      rw [ih q hq hqne]
      cases hgl : q.getLast? with
      | none =>
        have hsome : q.getLast?.isSome := List.getLast?_isSome.mpr hqne
        rw [hgl] at hsome
        simp at hsome
      | some c => rfl

theorem mk_data (l : List Char) : (String.mk l).data = l := rfl

theorem stringDataExt (s t : String) (h : s.data = t.data) : s = t := by
  cases s
  cases t
  exact congrArg String.mk h

theorem format_comma_separated_data (s : String) :
    (format_comma_separated s).data =
      joinSep [',', ' '] ((splitChar ',' s.data).map formatEntry) := rfl

/-- C7: the list normalizer `format_comma_separated` is idempotent: normalizing
an already-normalized comma-separated list returns the same string. -/
theorem C7_format_comma_separated_idempotent (s : String) :
    format_comma_separated (format_comma_separated s) = format_comma_separated s := by
  apply stringDataExt
  rw [format_comma_separated_data, format_comma_separated_data]
  cases hparts : splitChar ',' s.data with
  | nil => exact absurd hparts (splitChar_ne_nil ',' s.data)
  | cons p0 pt =>
    have hcf : ∀ p ∈ p0 :: pt, ',' ∉ p := by
      rw [← hparts]; exact mem_splitChar_not_mem
    have hcf0 : ',' ∉ formatEntry p0 :=
      formatEntry_comma_free (hcf p0 (List.mem_cons_self p0 pt))
    have hcft : ∀ q ∈ pt.map formatEntry, ',' ∉ q := by
      intro q hq
      obtain ⟨p, hp, rfl⟩ := List.mem_map.mp hq
      exact formatEntry_comma_free (hcf p (List.mem_cons_of_mem p0 hp))
    rw [List.map_cons]
    rw [splitChar_joinSep (formatEntry p0) (pt.map formatEntry) hcf0 hcft]
    rw [List.map_cons, formatEntry_idem]
    have hmaps : ((pt.map formatEntry).map (fun p => ' ' :: p)).map formatEntry =
        pt.map formatEntry := by
      rw [List.map_map, List.map_map]
      have hfun : (formatEntry ∘ (fun p => ' ' :: p)) ∘ formatEntry = formatEntry := by
        funext p
        show formatEntry (' ' :: formatEntry p) = formatEntry p
        rw [formatEntry_cons_ws _ (by decide), formatEntry_idem]
      rw [hfun]
    rw [hmaps]

/- ===================== Section C: claims C7, C8, C9 ===================== -/

/-- Claim-side single-character uppercase used by the C8 spec sentence:
uppercase only the first character of an entry, leaving the rest unchanged. -/
def upcharSpec (c : Char) : Char :=
  if 97 ≤ c.toNat ∧ c.toNat ≤ 122 then Char.ofNat (c.toNat - 32) else c

/-- Claim-side per-entry transformation for C8. -/
def specEntry (e : List Char) : List Char :=
  match trimC e with
  | [] => []
  | first :: rest => upcharSpec first :: rest

/-- Claim-side description of the list normalizer, written from the C8 spec
sentences: split on commas, trim each entry, uppercase only the first
character of each entry (remaining characters unchanged), keep empty entries
as empty segments, and rejoin all entries with the literal separator ", ". -/
def normalize_list_spec (s : String) : String :=
  ⟨joinSep [',', ' '] ((splitChar ',' s.data).map specEntry)⟩

theorem rustToUppercase_eq_upchar (c : Char) : rustToUppercase c = [upcharSpec c] := by
  unfold rustToUppercase upcharSpec
  by_cases h : 97 ≤ c.toNat ∧ c.toNat ≤ 122
  · simp [h]
  · simp [h]

theorem specEntry_eq_nil {l : List Char} (htr : trimC l = []) : specEntry l = [] := by
  unfold specEntry
  rw [htr]

theorem specEntry_eq_cons {l : List Char} {c : Char} {rest : List Char}
    (htr : trimC l = c :: rest) : specEntry l = upcharSpec c :: rest := by
  unfold specEntry
  rw [htr]

theorem formatEntry_eq_specEntry : formatEntry = specEntry := by
  funext e
  cases htr : trimC e with
  | nil => rw [formatEntry_eq_nil htr, specEntry_eq_nil htr]
  | cons c rest =>
    rw [formatEntry_eq_cons htr, specEntry_eq_cons htr, rustToUppercase_eq_upchar]
    rfl

/-- C8: for every input string, the list normalizer splits on commas, trims
each entry, uppercases only the first character of each entry (rest
unchanged), keeps empty entries as empty segments, and rejoins with the
literal separator ", "; in particular it maps "  python, sql,Go " to
"Python, Sql, Go". -/
theorem C8_normalize_list_behaviour (s : String) :
    format_comma_separated s = normalize_list_spec s ∧
    format_comma_separated "  python, sql,Go " = "Python, Sql, Go" := by
  constructor
  · apply stringDataExt
    rw [format_comma_separated_data]
    rw [formatEntry_eq_specEntry]
    rfl
  · decide

/-- Claim-side fragment list for C9: the non-blank fragments, each trimmed, in
the fixed order city, region, country. -/
def locParts (c r k : List Char) : List (List Char) :=
  (if trimC c = [] then [] else [trimC c]) ++
  (if trimC r = [] then [] else [trimC r]) ++
  (if trimC k = [] then [] else [trimC k])

/-- Claim-side formulation of `format_location` for C9: the trimmed non-blank
fragments joined in the fixed order city, region, country with ", ". -/
def format_location_spec (city region country : String) : String :=
  ⟨joinSep [',', ' '] (locParts city.data region.data country.data)⟩

/-- Claim-side separator hygiene predicate for C9: the output has no leading
separator, no trailing separator, and no doubled separator. -/
def noSeparatorArtifacts (s : String) : Prop :=
  ¬ ([',', ' '] <+: s.data) ∧ ¬ ([',', ' '] <:+ s.data) ∧
  ¬ ([',', ' ', ',', ' '] <:+: s.data)

instance (s : String) : Decidable (noSeparatorArtifacts s) := by
  unfold noSeparatorArtifacts
  infer_instance

theorem mem_of_getLast?_eq {α : Type} {l : List α} {a : α} (h : l.getLast? = some a) : a ∈ l := by
  obtain ⟨ys, rfl⟩ := List.getLast?_eq_some_iff.mp h
  simp

theorem head?_mem {α : Type} {l : List α} {a : α} (h : l.head? = some a) : a ∈ l := by
  cases l with
  | nil => simp at h
  | cons x xs =>
    simp at h
    simp [h]

/-- C9 counterexample: with the non-blank city fragment ", x" (and blank
region and country) the claim's separator-hygiene property fails: the output
", x" starts with the separator ", ". -/
theorem C9_counterexample : format_location ", x" "" "" = ", x" ∧
    ¬ noSeparatorArtifacts (format_location ", x" "" "") := by
  constructor
  · decide
  · decide

/-- C9 (amended): `format_location` returns the non-blank fragments, each
trimmed, joined in the fixed order city, region, country with ", "; blank or
whitespace-only fragments are omitted entirely; when all three are blank the
output is the empty string; and provided no fragment contains a comma the
output has no leading, trailing, or doubled separators; in particular
`format_location "" "Remote" "USA"` equals "Remote, USA". -/
theorem C9_format_location_joins (city region country : String) :
    format_location city region country = format_location_spec city region country ∧
    ((trimC city.data = [] ∧ trimC region.data = [] ∧ trimC country.data = []) →
      format_location city region country = "") ∧
    ((',' ∉ city.data ∧ ',' ∉ region.data ∧ ',' ∉ country.data) →
      noSeparatorArtifacts (format_location city region country)) ∧
    format_location "" "Remote" "USA" = "Remote, USA" := by
  refine ⟨?_, ?_, ?_, by decide⟩
  · apply stringDataExt
    show joinSep [',', ' ']
      (([city.data, region.data, country.data].filter
          (fun s => !(trimC s).isEmpty)).map trimC) =
      joinSep [',', ' '] (locParts city.data region.data country.data)
    congr 1
    unfold locParts
    by_cases h1 : trimC city.data = [] <;> by_cases h2 : trimC region.data = [] <;>
      by_cases h3 : trimC country.data = [] <;>
      simp [List.filter_cons, List.isEmpty_iff, h1, h2, h3]
  · intro ⟨h1, h2, h3⟩
    apply stringDataExt
    show joinSep [',', ' ']
      (([city.data, region.data, country.data].filter
          (fun s => !(trimC s).isEmpty)).map trimC) = []
    simp [List.filter_cons, List.isEmpty_iff, h1, h2, h3, joinSep]
  · intro ⟨hc1, hc2, hc3⟩
    set pieces := ([city.data, region.data, country.data].filter
        (fun s => !(trimC s).isEmpty)).map trimC with hpieces
    have hout : (format_location city region country).data = joinSep [',', ' '] pieces := rfl
    have hfacts : ∀ q ∈ pieces, q ≠ [] ∧
        (∀ e, q.head? = some e → isWsChar e = false) ∧
        (∀ e, q.getLast? = some e → isWsChar e = false) ∧ ',' ∉ q := by
      intro q hq
      rw [hpieces] at hq
      obtain ⟨s0, hs0, rfl⟩ := List.mem_map.mp hq
      obtain ⟨hs0mem, hs0ne⟩ := List.mem_filter.mp hs0
      refine ⟨?_, fun e he => trimC_head?_false he, fun e he => trimC_getLast?_false he, ?_⟩
      · simp only [Bool.not_eq_true'] at hs0ne
        exact List.isEmpty_eq_false.mp hs0ne
      · intro hmem
        have hs0c : ',' ∈ s0 := mem_trimC hmem
        simp only [List.mem_cons] at hs0mem
        rcases hs0mem with rfl | rfl | rfl | h0
        · exact hc1 hs0c
        · exact hc2 hs0c
        · exact hc3 hs0c
        · simp at h0
    cases hps : pieces with
    | nil =>
      rw [hps] at hout
      refine ⟨?_, ?_, ?_⟩
      · intro ⟨t, ht⟩
        rw [hout] at ht
        simp [joinSep] at ht
      · intro ⟨w, hw⟩
        rw [hout] at hw
        simp [joinSep] at hw
      · intro ⟨u, v, huv⟩
        rw [hout] at huv
        simp [joinSep] at huv
    | cons q qs =>
      have hq := hfacts q (by rw [hps]; exact List.mem_cons_self q qs)
      refine ⟨?_, ?_, ?_⟩
      · intro ⟨t, ht⟩
        rw [hout, hps] at ht
        have hhd : (joinSep [',', ' '] (q :: qs)).head? = q.head? :=
          joinSep_head? [',', ' '] q qs hq.1
        rw [← ht] at hhd
        simp at hhd
        exact hq.2.2.2 (head?_mem hhd.symm)
      · intro ⟨w, hw⟩
        rw [hout, hps] at hw
        obtain ⟨qlast, hql⟩ : ∃ x, (q :: qs).getLast? = some x := by
          cases hgl : (q :: qs).getLast? with
          | none =>
            have := List.getLast?_isSome.mpr (List.cons_ne_nil q qs)
            rw [hgl] at this
            simp at this
          | some x => exact ⟨x, rfl⟩
        have hqlastmem : qlast ∈ q :: qs := mem_of_getLast?_eq hql
        have hqlast := hfacts qlast (by rw [hps]; exact hqlastmem)
        have hlast : (joinSep [',', ' '] (q :: qs)).getLast? = qlast.getLast? :=
          joinSep_getLast? [',', ' '] (q :: qs) qlast hql hqlast.1
        rw [← hw, List.getLast?_append] at hlast
        simp at hlast
        have := hqlast.2.2.1 ' ' hlast.symm
        simp [isWsChar] at this
      · intro ⟨u, v, huv⟩
        rw [hout, hps] at huv
        have hcfq : ',' ∉ q := hq.2.2.2
        have hcfqs : ∀ p ∈ qs, ',' ∉ p := by
          intro p hp
          exact (hfacts p (by rw [hps]; exact List.mem_cons_of_mem q hp)).2.2.2
        have hchar : splitChar ',' (joinSep [',', ' '] (q :: qs)) =
            q :: qs.map (fun p => ' ' :: p) := splitChar_joinSep q qs hcfq hcfqs
        have huv2 : u ++ ',' :: (' ' :: ',' :: (' ' :: v)) = joinSep [',', ' '] (q :: qs) := by
          rw [← huv]
          simp
        have hmem : [' '] ∈ splitChar ',' (joinSep [',', ' '] (q :: qs)) := by
          rw [← huv2, splitChar_append_sep]
          have hsp2 : splitChar ',' (' ' :: ',' :: (' ' :: v)) =
              [' '] :: splitChar ',' (' ' :: v) := by
            have h1 : splitChar ',' (',' :: (' ' :: v)) = [] :: splitChar ',' (' ' :: v) :=
              splitChar_cons_sep ',' (' ' :: v)
            exact splitChar_cons_ne ',' ' ' _ (by decide) _ _ h1
          rw [hsp2]
          simp
        rw [hchar] at hmem
        rcases List.mem_cons.mp hmem with hmem | hmem
        · have := hq.2.1 ' ' (by rw [← hmem]; rfl)
          simp [isWsChar] at this
        · obtain ⟨p, hp, hpe⟩ := List.mem_map.mp hmem
          have : p = [] := by
            have := congrArg List.tail hpe
            simpa using this
          exact (hfacts p (by rw [hps]; exact List.mem_cons_of_mem q hp)).1 this

/-- Closed witness for C9 at concrete inputs, discharging the hypotheses. -/
theorem C9_format_location_witness :
    noSeparatorArtifacts (format_location "" "Remote" "USA") ∧
    format_location " " "\t" "" = "" := by
  constructor
  · exact (C9_format_location_joins "" "Remote" "USA").2.2.1 ⟨by decide, by decide, by decide⟩
  · exact (C9_format_location_joins " " "\t" "").2.1 ⟨by decide, by decide, by decide⟩

/- ===================== Section D: f64 model and the money parser ===================== -/

/-- ASCII decimal digit test (the `regex` crate's `\d` class and Rust's number
parsing both accept exactly these characters on the repository's inputs). -/
def isDigitCh (c : Char) : Bool :=
  decide (48 ≤ c.toNat) && decide (c.toNat ≤ 57)

/-- Lowercase an ASCII character, used to model the case-insensitive matching
of the special float literals inside Rust `f64::from_str`. -/
def toLowerCh (c : Char) : Char :=
  if 65 ≤ c.toNat ∧ c.toNat ≤ 90 then Char.ofNat (c.toNat + 32) else c

/-- Numeric value of a digit string (most significant digit first). -/
def natOfDigits (l : List Char) : Nat :=
  l.foldl (fun acc c => acc * 10 + (c.toNat - 48)) 0

/-- An exact decimal value `m * 10 ^ e10`.  Every Rust float literal denotes
such a value, and the repository's money pipeline only ever manipulates them
by decimal shifts, rounding and truncation, which this type supports with
exact integer arithmetic. -/
structure D10 where
  m : ℤ
  e10 : ℤ
deriving DecidableEq, Repr

/-- The rational value of a decimal. -/
def D10.toRat (d : D10) : ℚ := (d.m : ℚ) * (10 : ℚ) ^ d.e10

/-- Exact-decimal model of an `f64` value, with infinities and NaN explicit.
Finite values are carried exactly as decimals; on exactly representable
values (such as the repository's money strings) the pipeline below agrees
with IEEE double arithmetic, and the bit-accurate binary64 model (`F64b`,
`get_pay_i64b`) is defined further down for the claims that need it. -/
inductive F64 where
  | finite (d : D10) : F64
  | inf (positive : Bool) : F64
  | nan : F64
deriving DecidableEq

/-- Strip an optional leading sign, returning (negative?, rest).  Part of the
model of Rust `f64::from_str`. -/
def parseSign : List Char → Bool × List Char
  | [] => (false, [])
  | c :: r =>
    if c = '+' then (false, r)
    else if c = '-' then (true, r)
    else (false, c :: r)

/-- Case-insensitive test for the special float words accepted by Rust
`f64::from_str` after the optional sign: `inf`, `infinity`, `nan`. -/
def specialCore (l : List Char) : Bool :=
  (l.map toLowerCh = ['i', 'n', 'f']) ||
  (l.map toLowerCh = ['i', 'n', 'f', 'i', 'n', 'i', 't', 'y']) ||
  (l.map toLowerCh = ['n', 'a', 'n'])

/-- Parse the special float words to their values. -/
def parseSpecial (neg : Bool) (l : List Char) : Option F64 :=
  if (l.map toLowerCh = ['i', 'n', 'f']) ||
     (l.map toLowerCh = ['i', 'n', 'f', 'i', 'n', 'i', 't', 'y']) then
    some (F64.inf (!neg))
  else if l.map toLowerCh = ['n', 'a', 'n'] then
    some F64.nan
  else
    none

/-- Parse the mantissa of a float literal: `Digits ['.' Digits*]` or
`'.' Digits+`, returning its exact decimal value and the unconsumed rest. -/
def parseMantissa (l : List Char) : Option (D10 × List Char) :=
  let ip := l.takeWhile isDigitCh
  let r1 := l.dropWhile isDigitCh
  match r1 with
  | '.' :: r2 =>
    let fp := r2.takeWhile isDigitCh
    let r3 := r2.dropWhile isDigitCh
    if ip.isEmpty && fp.isEmpty then none
    else some (⟨(natOfDigits (ip ++ fp) : ℤ), -(fp.length : ℤ)⟩, r3)
  | _ =>
    if ip.isEmpty then none
    else some (⟨(natOfDigits ip : ℤ), 0⟩, r1)

/-- Parse the optional exponent suffix `('e'|'E') Sign? Digits+` which must
consume the remainder of the string; an empty remainder means exponent 0. -/
def parseExpSuffix : List Char → Option ℤ
  | [] => some 0
  | e :: r =>
    if e = 'e' ∨ e = 'E' then
      let (negE, r2) := parseSign r
      let ds := r2.takeWhile isDigitCh
      let r3 := r2.dropWhile isDigitCh
      if ds.isEmpty || !r3.isEmpty then none
      else some (if negE then -(natOfDigits ds : ℤ) else (natOfDigits ds : ℤ))
    else none

/-- Model of Rust `str::parse::<f64>()` (`f64::from_str`): an optional sign,
then either a special word (`inf`/`infinity`/`nan`, case-insensitive) or a
decimal mantissa with optional exponent; anything else is a parse error.
Finite values are carried as the exact decimal the literal denotes; the
binary64 rounding Rust then performs is applied by `parseF64b` below, which
the claims that range over all finite literals use (the exact-decimal form
is used where only the grammar or exactly representable values matter). -/
def parseF64 (l : List Char) : Option F64 :=
  let (neg, r) := parseSign l
  match parseSpecial neg r with
  | some v => some v
  | none =>
    match parseMantissa r with
    | none => none
    | some (d, rest) =>
      match parseExpSuffix rest with
      | none => none
      | some e => some (F64.finite ⟨if neg then -d.m else d.m, d.e10 + e⟩)

/-- Round half away from zero on rationals, the semantics of Rust
`f64::round`. -/
def roundHalfAway (q : ℚ) : ℤ :=
  if 0 ≤ q then ⌊q + 1 / 2⌋ else -⌊-q + 1 / 2⌋

/-- The `i64` maximum. -/
def I64MAX : ℤ := 9223372036854775807

/-- The `i64` minimum. -/
def I64MIN : ℤ := -9223372036854775808

/-- Saturate an integer into the `i64` range. -/
def clampI64 (z : ℤ) : ℤ := max I64MIN (min I64MAX z)

/-- Round a decimal half away from zero using integer arithmetic. -/
def roundD10 (d : D10) : ℤ :=
  if 0 ≤ d.e10 then d.m * (10 ^ d.e10.toNat : ℕ)
  else
    let k := 10 ^ (-d.e10).toNat
    if 0 ≤ d.m then ((2 * d.m.toNat + k) / (2 * k) : ℕ)
    else -(((2 * (-d.m).toNat + k) / (2 * k) : ℕ))

/-- Truncate a decimal toward zero using integer arithmetic. -/
def truncD10 (d : D10) : ℤ :=
  if 0 ≤ d.e10 then d.m * (10 ^ d.e10.toNat : ℕ)
  else
    let k := 10 ^ (-d.e10).toNat
    if 0 ≤ d.m then (d.m.toNat / k : ℕ)
    else -((-d.m).toNat / k : ℕ)

/-- Multiplication by the literal `100.0`, the `num * 100.0` step of
`get_pay_i64` (exact: a decimal shift by two). -/
def f64Mul100 : F64 → F64
  | .finite d => .finite ⟨d.m, d.e10 + 2⟩
  | .inf p => .inf p
  | .nan => .nan

/-- Model of `f64::round`. -/
def f64Round : F64 → F64
  | .finite d => .finite ⟨roundD10 d, 0⟩
  | v => v

/-- Model of the Rust `as i64` cast on an `f64`: truncate toward zero and
saturate; NaN casts to 0, the infinities to the `i64` extremes. -/
def f64AsI64 : F64 → ℤ
  | .finite d => clampI64 (truncD10 d)
  | .inf p => if p then I64MAX else I64MIN
  | .nan => 0

/-- Embedding of `get_pay_i64` (src/utils.rs:3-9, duplicated in
src/data.rs:43-49) over the exact-decimal float model: parse the string as
`f64`; on success return `(num * 100.0).round() as i64`, otherwise the error
"Invalid input string".  It agrees with the bit-accurate `get_pay_i64b`
below on exactly representable values; claims that quantify over all
literals are stated against `get_pay_i64b`. -/
def get_pay_i64 (s : String) : Except String ℤ :=
  match parseF64 s.data with
  | some v => Except.ok (f64AsI64 (f64Round (f64Mul100 v)))
  | none => Except.error "Invalid input string"

deriving instance DecidableEq for Except

example : get_pay_i64 "85000" = Except.ok 8500000 := by decide
example : get_pay_i64 "12.3" = Except.ok 1230 := by decide
example : get_pay_i64 "abc" = Except.error "Invalid input string" := by decide
example : get_pay_i64 "85,000" = Except.error "Invalid input string" := by decide
example : get_pay_i64 "inf" = Except.ok 9223372036854775807 := by decide
example : get_pay_i64 "nan" = Except.ok 0 := by decide
example : get_pay_i64 "-12.5" = Except.ok (-1250) := by decide
example : get_pay_i64 "1e2" = Except.ok 10000 := by decide
example : get_pay_i64 "100000000000000000" = Except.ok 9223372036854775807 := by decide
example : get_pay_i64 ".5" = Except.ok 50 := by decide
example : get_pay_i64 "" = Except.error "Invalid input string" := by decide

/- ===================== Section E: claim C4 ===================== -/

theorem floor_add_half_intCast (n : ℤ) : (⌊(n : ℚ) + 1 / 2⌋ : ℤ) = n := by
  rw [Int.floor_int_add]
  norm_num

theorem roundHalfAway_intCast (n : ℤ) : roundHalfAway (n : ℚ) = n := by
  unfold roundHalfAway
  by_cases h : 0 ≤ (n : ℚ)
  · rw [if_pos h, floor_add_half_intCast]
  · rw [if_neg h]
    rw [show (-(n : ℚ) : ℚ) = ((-n : ℤ) : ℚ) by push_cast; ring]
    rw [floor_add_half_intCast]
    ring

theorem floor_natCast_div (p q : ℕ) : ⌊(p : ℚ) / (q : ℚ)⌋ = (p / q : ℕ) := by
  exact_mod_cast Nat.floor_div_nat (p : ℚ) q

theorem roundHalfAway_natCast_div {a k : ℕ} (hk : 0 < k) :
    roundHalfAway ((a : ℚ) / (k : ℚ)) = ((2 * a + k) / (2 * k) : ℕ) := by
  have hnn : (0 : ℚ) ≤ (a : ℚ) / (k : ℚ) := by positivity
  unfold roundHalfAway
  rw [if_pos hnn]
  have heq : (a : ℚ) / (k : ℚ) + 1 / 2 = ((2 * a + k : ℕ) : ℚ) / ((2 * k : ℕ) : ℚ) := by
    have hkq : ((k : ℚ)) ≠ 0 := by positivity
    push_cast
    field_simp
    ring
  rw [heq, floor_natCast_div]

theorem D10.toRat_nonneg_e {d : D10} (h : 0 ≤ d.e10) :
    d.toRat = ((d.m * (10 ^ d.e10.toNat : ℕ) : ℤ) : ℚ) := by
  unfold D10.toRat
  obtain ⟨t, ht⟩ : ∃ t : ℕ, d.e10 = (t : ℤ) := ⟨d.e10.toNat, (Int.toNat_of_nonneg h).symm⟩
  have h3 : d.e10.toNat = t := by omega
  rw [h3, ht, zpow_natCast]
  push_cast
  ring

theorem D10.toRat_neg_e {d : D10} (h : ¬ 0 ≤ d.e10) :
    d.toRat = (d.m : ℚ) / ((10 ^ (-d.e10).toNat : ℕ) : ℚ) := by
  unfold D10.toRat
  obtain ⟨t, ht⟩ : ∃ t : ℕ, -d.e10 = (t : ℤ) :=
    ⟨(-d.e10).toNat, (Int.toNat_of_nonneg (by omega)).symm⟩
  have h3 : (-d.e10).toNat = t := by omega
  have h2 : d.e10 = -((t : ℕ) : ℤ) := by omega
  rw [h3, h2, zpow_neg, zpow_natCast]
  rw [div_eq_mul_inv]
  congr 1
  push_cast
  ring

theorem roundD10_eq (d : D10) : roundD10 d = roundHalfAway d.toRat := by
  unfold roundD10
  by_cases he : 0 ≤ d.e10
  · rw [if_pos he, D10.toRat_nonneg_e he, roundHalfAway_intCast]
  · rw [if_neg he, D10.toRat_neg_e he]
    have hk : 0 < 10 ^ (-d.e10).toNat := Nat.pos_pow_of_pos _ (by norm_num)
    by_cases hm : 0 ≤ d.m
    · rw [if_pos hm]
      rw [show (d.m : ℚ) = ((d.m.toNat : ℕ) : ℚ) by
        exact_mod_cast (Int.toNat_of_nonneg hm).symm]
      rw [roundHalfAway_natCast_div hk]
    · rw [if_neg hm]
      have hneg : (d.m : ℚ) / ((10 ^ (-d.e10).toNat : ℕ) : ℚ) =
          -(((-d.m).toNat : ℕ) / ((10 ^ (-d.e10).toNat : ℕ) : ℚ)) := by
        rw [show (((-d.m).toNat : ℕ) : ℚ) = ((-d.m : ℤ) : ℚ) by
          exact_mod_cast congrArg (fun z : ℤ => (z : ℚ)) (Int.toNat_of_nonneg (show (0 : ℤ) ≤ -d.m by omega))]
        push_cast
        ring
      rw [hneg]
      have hfrac_nonneg : (0 : ℚ) ≤ (((-d.m).toNat : ℕ) : ℚ) / ((10 ^ (-d.e10).toNat : ℕ) : ℚ) := by
        positivity
      have hfrac_pos : ¬ (0 : ℚ) ≤ -((((-d.m).toNat : ℕ) : ℚ) / ((10 ^ (-d.e10).toNat : ℕ) : ℚ)) ∨
          (((-d.m).toNat : ℕ) : ℚ) / ((10 ^ (-d.e10).toNat : ℕ) : ℚ) = 0 := by
        by_cases hz : (((-d.m).toNat : ℕ) : ℚ) / ((10 ^ (-d.e10).toNat : ℕ) : ℚ) = 0
        · exact Or.inr hz
        · left
          intro habs
          have : (((-d.m).toNat : ℕ) : ℚ) / ((10 ^ (-d.e10).toNat : ℕ) : ℚ) ≤ 0 := by linarith
          exact hz (le_antisymm this hfrac_nonneg)
      rcases hfrac_pos with hfp | hfp
      · unfold roundHalfAway
        rw [if_neg hfp]
        rw [neg_neg]
        rw [show (((-d.m).toNat : ℕ) : ℚ) / ((10 ^ (-d.e10).toNat : ℕ) : ℚ) + 1 / 2 =
            ((2 * (-d.m).toNat + 10 ^ (-d.e10).toNat : ℕ) : ℚ) / ((2 * 10 ^ (-d.e10).toNat : ℕ) : ℚ) by
          have hkq : ((10 ^ (-d.e10).toNat : ℕ) : ℚ) ≠ 0 := by positivity
          push_cast
          field_simp
          ring]
        rw [floor_natCast_div]
      · have hm0 : (-d.m).toNat = 0 := by
          have hkq : ((10 ^ (-d.e10).toNat : ℕ) : ℚ) ≠ 0 := by positivity
          rcases div_eq_zero_iff.mp hfp with h0 | h0
          · exact_mod_cast h0
          · exact absurd h0 hkq
        omega

theorem truncD10_int (z : ℤ) : truncD10 ⟨z, 0⟩ = z := by
  unfold truncD10
  norm_num

theorem D10.toRat_shift2 (d : D10) : D10.toRat ⟨d.m, d.e10 + 2⟩ = d.toRat * 100 := by
  unfold D10.toRat
  rw [zpow_add₀ (by norm_num : (10 : ℚ) ≠ 0)]
  norm_num
  ring

/- ===================== Section E2: bit-accurate binary64 arithmetic (claim C4) ===================== -/


/-- Fuel-based binary length of a natural number (structural recursion so that
it kernel-reduces under `decide`); with fuel at least `n` it is the number of
binary digits of `n`. -/
def nbits : ℕ → ℕ → ℕ
  | 0, _ => 0
  | fuel + 1, n => if n = 0 then 0 else nbits fuel (n / 2) + 1

/-- Number of binary digits of `n` (`fuel := n` always suffices). -/
def bitlen (n : ℕ) : ℕ := nbits n n

/-- Nearest integer to `num / den` with ties to even, by integer division;
the rounding used at every stage of IEEE binary64 arithmetic. -/
def rneDiv (num den : ℕ) : ℕ :=
  let q := num / den
  let r := num % den
  if 2 * r < den then q
  else if den < 2 * r then q + 1
  else if q % 2 = 0 then q else q + 1

/-- Floor of the base-2 logarithm of the positive rational `a / d`, computed
from the binary lengths of numerator and denominator plus one comparison. -/
def fLog2 (a d : ℕ) : ℤ :=
  let c : ℤ := (bitlen a : ℤ) - (bitlen d : ℤ)
  if 0 ≤ c then (if d * 2 ^ c.toNat ≤ a then c else c - 1)
  else (if d ≤ a * 2 ^ (-c).toNat then c else c - 1)

/-- Numerator and denominator of `(a / d) / 2 ^ t` as a pair of naturals. -/
def scaledPair (a d : ℕ) (t : ℤ) : ℕ × ℕ :=
  if 0 ≤ t then (a, d * 2 ^ t.toNat) else (a * 2 ^ (-t).toNat, d)

/-- Significand of the positive rational `a / d` at exponent `t`: the nearest
integer (ties to even) to `(a / d) / 2 ^ t`. -/
def sigAt (a d : ℕ) (t : ℤ) : ℕ :=
  rneDiv (scaledPair a d t).1 (scaledPair a d t).2

/-- Round the positive rational `a / d` to the IEEE binary64 grid, nearest
with ties to even: significand at exponent `max (floorLog2 - 52) (-1074)`
(53-bit precision, subnormals below `2 ^ -1022`), a carry out of 53 bits
renormalised, and overflow beyond the largest finite double (exponent 971)
reported as `none` (infinity). -/
def roundPosRat64 (a d : ℕ) : Option (ℕ × ℤ) :=
  let t : ℤ := max (fLog2 a d - 52) (-1074)
  let q : ℕ := sigAt a d t
  let q2 : ℕ := if q = 2 ^ 53 then 2 ^ 52 else q
  let t2 : ℤ := if q = 2 ^ 53 then t + 1 else t
  if 972 ≤ t2 then none else some (q2, t2)

/-- A finite IEEE binary64 value `m * 2 ^ t`. -/
structure B64 where
  m : ℤ
  t : ℤ
deriving DecidableEq, Repr

/-- The rational value of a finite binary64. -/
def B64.toRat (v : B64) : ℚ := (v.m : ℚ) * (2 : ℚ) ^ v.t

/-- Bit-accurate model of an `f64` value: a finite binary64, an infinity or
NaN. -/
inductive F64b where
  | finite (v : B64) : F64b
  | inf (positive : Bool) : F64b
  | nan : F64b
deriving DecidableEq, Repr

/-- Round any rational `n / d` (`d > 0`) to the nearest binary64 (ties to
even), overflow giving the correctly signed infinity. -/
def ratToB64 (n : ℤ) (d : ℕ) : F64b :=
  if n = 0 then .finite ⟨0, 0⟩
  else
    match roundPosRat64 n.natAbs d with
    | none => .inf (decide (0 < n))
    | some (q, t) => .finite ⟨if n < 0 then -(q : ℤ) else (q : ℤ), t⟩

/-- Correctly rounded conversion of an exact decimal to binary64 - the
rounding Rust `f64::from_str` performs on the digits it has read (Rust's
float parsing is documented to round correctly). -/
def d10ToB64 (x : D10) : F64b :=
  if 0 ≤ x.e10 then ratToB64 (x.m * (10 ^ x.e10.toNat : ℕ)) 1
  else ratToB64 x.m (10 ^ (-x.e10).toNat)

/-- Bit-accurate model of Rust `str::parse::<f64>()`: the grammar of
`parseF64` followed by correct rounding of the exact decimal to binary64. -/
def parseF64b (l : List Char) : Option F64b :=
  (parseF64 l).map fun v =>
    match v with
    | .finite x => d10ToB64 x
    | .inf p => .inf p
    | .nan => .nan

/-- IEEE multiplication by the literal `100.0` (exactly representable): the
exact product rounded to nearest binary64, the `num * 100.0` step of
`get_pay_i64`. -/
def f64bMul100 : F64b → F64b
  | .finite v =>
    if 0 ≤ v.t then ratToB64 (v.m * 100 * (2 ^ v.t.toNat : ℕ)) 1
    else ratToB64 (v.m * 100) (2 ^ (-v.t).toNat)
  | .inf p => .inf p
  | .nan => .nan

/-- Half-away-from-zero rounding of a finite binary64 to an integer by
integer arithmetic (the value of `f64::round`; the result, of magnitude at
most `2 ^ 53` when the input is bounded by it, is itself exactly
representable, so no further rounding occurs). -/
def roundB64 (v : B64) : ℤ :=
  if 0 ≤ v.t then v.m * (2 ^ v.t.toNat : ℕ)
  else
    let k := 2 ^ (-v.t).toNat
    if 0 ≤ v.m then ((2 * v.m.toNat + k) / (2 * k) : ℕ)
    else -(((2 * (-v.m).toNat + k) / (2 * k) : ℕ))

/-- Model of `f64::round` on binary64 values. -/
def f64bRound : F64b → F64b
  | .finite v => .finite ⟨roundB64 v, 0⟩
  | w => w

/-- Truncation of a finite binary64 toward zero by integer arithmetic. -/
def truncB64 (v : B64) : ℤ :=
  if 0 ≤ v.t then v.m * (2 ^ v.t.toNat : ℕ)
  else
    let k := 2 ^ (-v.t).toNat
    if 0 ≤ v.m then (v.m.toNat / k : ℕ)
    else -(((-v.m).toNat / k : ℕ))

/-- The Rust `as i64` cast on a binary64 value: truncate toward zero and
saturate; NaN casts to 0, the infinities to the `i64` extremes. -/
def f64bAsI64 : F64b → ℤ
  | .finite v => clampI64 (truncB64 v)
  | .inf p => if p then I64MAX else I64MIN
  | .nan => 0

/-- Bit-accurate embedding of `get_pay_i64` (src/utils.rs:3-9): parse the
string as a binary64 `f64`; on success return `(num * 100.0).round() as i64`
with every arithmetic step rounded as IEEE doubles round, otherwise the
error "Invalid input string". -/
def get_pay_i64b (s : String) : Except String ℤ :=
  match parseF64b s.data with
  | some v => Except.ok (f64bAsI64 (f64bRound (f64bMul100 v)))
  | none => Except.error "Invalid input string"

example : get_pay_i64b "0.285" = Except.ok 28 := by decide
example : d10ToB64 ⟨285, -3⟩ = F64b.finite ⟨5134103575202365, -54⟩ := by decide

theorem nbits_zero (fuel : ℕ) : nbits fuel 0 = 0 := by
  cases fuel <;> simp [nbits]

theorem nbits_spec : ∀ fuel n, 1 ≤ n → n ≤ fuel →
    n < 2 ^ nbits fuel n ∧ 2 ^ nbits fuel n ≤ 2 * n := by
  intro fuel
  induction fuel with
  | zero => intro n h1 h2; omega
  | succ f ih =>
    intro n h1 h2
    have heq : nbits (f + 1) n = if n = 0 then 0 else nbits f (n / 2) + 1 := rfl
    rw [heq, if_neg (by omega)]
    by_cases h2n : n = 1
    · subst h2n
      rw [show (1 : ℕ) / 2 = 0 by norm_num, nbits_zero]
      norm_num
    · have hn2 : 1 ≤ n / 2 := by omega
      have hf : n / 2 ≤ f := by omega
      have hih := ih (n / 2) hn2 hf
      rw [pow_succ]
      omega

theorem bitlen_spec (n : ℕ) (h : 1 ≤ n) :
    n < 2 ^ bitlen n ∧ 2 ^ bitlen n ≤ 2 * n :=
  nbits_spec n n h le_rfl

theorem rneDiv_bounds (num den : ℕ) (hden : 0 < den) :
    2 * rneDiv num den * den ≤ 2 * num + den ∧
    2 * num ≤ 2 * rneDiv num den * den + den := by
  unfold rneDiv
  dsimp only
  have h1 : den * (num / den) + num % den = num := Nat.div_add_mod num den
  have h2 : num % den < den := Nat.mod_lt _ hden
  generalize hq : num / den = q at h1 ⊢
  generalize hr : num % den = r at h1 h2 ⊢
  split
  next hlt =>
    rw [show 2 * q * den = 2 * (den * q) by ring]
    omega
  next hlt =>
    split
    next hgt =>
      rw [show 2 * (q + 1) * den = 2 * (den * q) + 2 * den by ring]
      omega
    next hgt =>
      split
      next hev =>
        rw [show 2 * q * den = 2 * (den * q) by ring]
        omega
      next hev =>
        rw [show 2 * (q + 1) * den = 2 * (den * q) + 2 * den by ring]
        omega

theorem rneDiv_le (num den M : ℕ) (hden : 0 < den) (h : num < den * M) :
    rneDiv num den ≤ M := by
  have hb := (rneDiv_bounds num den hden).1
  by_contra hc
  push_neg at hc
  have hge : 2 * (M + 1) * den ≤ 2 * rneDiv num den * den :=
    Nat.mul_le_mul_right den (by omega)
  rw [show 2 * (M + 1) * den = 2 * (den * M) + 2 * den by ring] at hge
  omega

theorem rneDiv_exact (num den k : ℕ) (hden : 0 < den) (h : num = den * k) :
    rneDiv num den = k := by
  unfold rneDiv
  dsimp only
  subst h
  have hq : den * k / den = k := by
    rw [Nat.mul_div_cancel_left _ hden]
  have hr : den * k % den = 0 := by
    rw [Nat.mul_mod_right]
  rw [hq, hr]
  rw [if_pos (show 2 * 0 < den by omega)]

theorem two_zpow_pos (t : ℤ) : (0 : ℚ) < (2 : ℚ) ^ t :=
  zpow_pos (by norm_num) t

theorem two_zpow_natCast (k : ℕ) : (2 : ℚ) ^ (k : ℤ) = ((2 ^ k : ℕ) : ℚ) := by
  rw [zpow_natCast]
  push_cast
  ring

theorem two_zpow_nonneg_eq {c : ℤ} (h : 0 ≤ c) :
    (2 : ℚ) ^ c = ((2 ^ c.toNat : ℕ) : ℚ) := by
  obtain ⟨k, hk⟩ : ∃ k : ℕ, c = (k : ℤ) := ⟨c.toNat, (Int.toNat_of_nonneg h).symm⟩
  have h2 : c.toNat = k := by omega
  rw [h2, hk, two_zpow_natCast]

theorem two_zpow_neg_eq {c : ℤ} (h : ¬ 0 ≤ c) :
    (2 : ℚ) ^ c = 1 / ((2 ^ (-c).toNat : ℕ) : ℚ) := by
  obtain ⟨k, hk⟩ : ∃ k : ℕ, -c = (k : ℤ) := ⟨(-c).toNat, (Int.toNat_of_nonneg (by omega)).symm⟩
  have h2 : (-c).toNat = k := by omega
  have h3 : c = -(k : ℤ) := by omega
  rw [h2, h3, zpow_neg, two_zpow_natCast, one_div]

theorem zpow_le_div_iff_nat {a d : ℕ} (hd : 0 < d) (c : ℤ) :
    ((2 : ℚ) ^ c ≤ (a : ℚ) / (d : ℚ)) ↔
      (if 0 ≤ c then d * 2 ^ c.toNat ≤ a else d ≤ a * 2 ^ (-c).toNat) := by
  have hdq : (0 : ℚ) < (d : ℚ) := by exact_mod_cast hd
  split
  next h =>
    rw [two_zpow_nonneg_eq h, le_div_iff₀ hdq]
    rw [show ((2 ^ c.toNat : ℕ) : ℚ) * (d : ℚ) = ((d * 2 ^ c.toNat : ℕ) : ℚ) by push_cast; ring]
    exact Nat.cast_le
  next h =>
    have hpm : (0 : ℚ) < ((2 ^ (-c).toNat : ℕ) : ℚ) := by positivity
    rw [two_zpow_neg_eq h, div_le_div_iff₀ hpm hdq, one_mul]
    rw [show (a : ℚ) * ((2 ^ (-c).toNat : ℕ) : ℚ) = ((a * 2 ^ (-c).toNat : ℕ) : ℚ) by push_cast; ring]
    exact Nat.cast_le

theorem fLog2_upper (a d : ℕ) (ha : 1 ≤ a) (hd : 1 ≤ d) :
    (a : ℚ) / (d : ℚ) < (2 : ℚ) ^ (fLog2 a d + 1) := by
  have hba := bitlen_spec a ha
  have hbd := bitlen_spec d hd
  have hdq : (0 : ℚ) < (d : ℚ) := by exact_mod_cast hd
  have hA : (a : ℚ) < (2 : ℚ) ^ ((bitlen a : ℕ) : ℤ) := by
    rw [two_zpow_natCast]
    exact_mod_cast hba.1
  have hB : (2 : ℚ) ^ ((bitlen d : ℕ) : ℤ) ≤ 2 * (d : ℚ) := by
    rw [two_zpow_natCast]
    exact_mod_cast hbd.2
  have hglobal : (a : ℚ) / (d : ℚ) <
      (2 : ℚ) ^ ((bitlen a : ℤ) - (bitlen d : ℤ) + 1) := by
    rw [div_lt_iff₀ hdq]
    calc (a : ℚ) < (2 : ℚ) ^ ((bitlen a : ℕ) : ℤ) := hA
      _ = (2 : ℚ) ^ ((bitlen a : ℤ) - (bitlen d : ℤ) + 1) * (2 : ℚ) ^ ((bitlen d : ℕ) : ℤ) / 2 := by
          rw [← zpow_add₀ (by norm_num : (2 : ℚ) ≠ 0)]
          rw [show (bitlen a : ℤ) - (bitlen d : ℤ) + 1 + ((bitlen d : ℕ) : ℤ) =
              ((bitlen a : ℕ) : ℤ) + 1 by ring]
          rw [zpow_add₀ (by norm_num : (2 : ℚ) ≠ 0), zpow_one]
          ring
      _ ≤ (2 : ℚ) ^ ((bitlen a : ℤ) - (bitlen d : ℤ) + 1) * (2 * (d : ℚ)) / 2 := by
          gcongr
      _ = (2 : ℚ) ^ ((bitlen a : ℤ) - (bitlen d : ℤ) + 1) * (d : ℚ) := by ring
  unfold fLog2
  dsimp only
  split
  next h0 =>
    split
    next htest => exact hglobal
    next htest =>
      rw [sub_add_cancel]
      rw [← not_le]
      intro habs
      exact htest (by
        have := (zpow_le_div_iff_nat hd ((bitlen a : ℤ) - (bitlen d : ℤ))).mp habs
        rwa [if_pos h0] at this)
  next h0 =>
    split
    next htest => exact hglobal
    next htest =>
      rw [sub_add_cancel]
      rw [← not_le]
      intro habs
      exact htest (by
        have := (zpow_le_div_iff_nat hd ((bitlen a : ℤ) - (bitlen d : ℤ))).mp habs
        rwa [if_neg h0] at this)

theorem scaledPair_den_pos (a d : ℕ) (t : ℤ) (hd : 0 < d) :
    0 < (scaledPair a d t).2 := by
  unfold scaledPair
  split
  · exact Nat.mul_pos hd (Nat.pos_pow_of_pos _ (by norm_num))
  · exact hd

theorem scaledPair_val (a d : ℕ) (t : ℤ) (hd : 0 < d) :
    ((scaledPair a d t).1 : ℚ) / ((scaledPair a d t).2 : ℚ) =
      (a : ℚ) / (d : ℚ) / (2 : ℚ) ^ t := by
  unfold scaledPair
  split
  next h =>
    dsimp only
    rw [two_zpow_nonneg_eq h]
    push_cast
    rw [div_div]
  next h =>
    dsimp only
    rw [two_zpow_neg_eq h]
    have hx : ((2 ^ (-t).toNat : ℕ) : ℚ) ≠ 0 := by positivity
    have hdq : (d : ℚ) ≠ 0 := by
      have : (0 : ℚ) < (d : ℚ) := by exact_mod_cast hd
      exact ne_of_gt this
    push_cast at hx ⊢
    field_simp

theorem sigAt_err (a d : ℕ) (t : ℤ) (hd : 0 < d) :
    |(sigAt a d t : ℚ) * (2 : ℚ) ^ t - (a : ℚ) / (d : ℚ)| ≤ (2 : ℚ) ^ t / 2 := by
  have hden := scaledPair_den_pos a d t hd
  have hval := scaledPair_val a d t hd
  have hb := rneDiv_bounds (scaledPair a d t).1 (scaledPair a d t).2 hden
  have hdenq : (0 : ℚ) < ((scaledPair a d t).2 : ℚ) := by exact_mod_cast hden
  have h1 : 2 * (rneDiv (scaledPair a d t).1 (scaledPair a d t).2 : ℚ) * (scaledPair a d t).2 ≤
      2 * (scaledPair a d t).1 + (scaledPair a d t).2 := by exact_mod_cast hb.1
  have h2 : 2 * ((scaledPair a d t).1 : ℚ) ≤
      2 * (rneDiv (scaledPair a d t).1 (scaledPair a d t).2 : ℚ) * (scaledPair a d t).2 +
      (scaledPair a d t).2 := by exact_mod_cast hb.2
  have hmul : ((scaledPair a d t).1 : ℚ) / ((scaledPair a d t).2 : ℚ) * ((scaledPair a d t).2 : ℚ) =
      ((scaledPair a d t).1 : ℚ) := div_mul_cancel₀ _ (ne_of_gt hdenq)
  have hq : |(rneDiv (scaledPair a d t).1 (scaledPair a d t).2 : ℚ) -
      ((scaledPair a d t).1 : ℚ) / ((scaledPair a d t).2 : ℚ)| ≤ 1 / 2 := by
    rw [abs_le]
    constructor
    · nlinarith [hmul, h1, h2, hdenq]
    · nlinarith [hmul, h1, h2, hdenq]
  have had : (a : ℚ) / (d : ℚ) =
      ((scaledPair a d t).1 : ℚ) / ((scaledPair a d t).2 : ℚ) * (2 : ℚ) ^ t := by
    rw [hval, div_mul_cancel₀ _ (ne_of_gt (two_zpow_pos t))]
  calc |(sigAt a d t : ℚ) * (2 : ℚ) ^ t - (a : ℚ) / (d : ℚ)|
      = |(rneDiv (scaledPair a d t).1 (scaledPair a d t).2 : ℚ) -
          ((scaledPair a d t).1 : ℚ) / ((scaledPair a d t).2 : ℚ)| * (2 : ℚ) ^ t := by
        unfold sigAt
        rw [had, ← sub_mul, abs_mul, abs_of_pos (two_zpow_pos t)]
    _ ≤ 1 / 2 * (2 : ℚ) ^ t := by
        exact mul_le_mul_of_nonneg_right hq (le_of_lt (two_zpow_pos t))
    _ = (2 : ℚ) ^ t / 2 := by ring

theorem sigAt_le (a d : ℕ) (t : ℤ) (hd : 0 < d)
    (h : (a : ℚ) / (d : ℚ) < (2 : ℚ) ^ (t + 53)) : sigAt a d t ≤ 2 ^ 53 := by
  unfold sigAt
  apply rneDiv_le _ _ _ (scaledPair_den_pos a d t hd)
  have hval := scaledPair_val a d t hd
  have hdenq : (0 : ℚ) < ((scaledPair a d t).2 : ℚ) := by
    exact_mod_cast scaledPair_den_pos a d t hd
  have hlt : ((scaledPair a d t).1 : ℚ) / ((scaledPair a d t).2 : ℚ) < ((2 ^ 53 : ℕ) : ℚ) := by
    rw [hval, div_lt_iff₀ (two_zpow_pos t)]
    calc (a : ℚ) / (d : ℚ) < (2 : ℚ) ^ (t + 53) := h
      _ = ((2 ^ 53 : ℕ) : ℚ) * (2 : ℚ) ^ t := by
          rw [zpow_add₀ (by norm_num : (2 : ℚ) ≠ 0)]
          rw [show ((53 : ℤ)) = ((53 : ℕ) : ℤ) by norm_num, two_zpow_natCast]
          ring
  rw [div_lt_iff₀ hdenq] at hlt
  have : ((scaledPair a d t).1 : ℚ) < (((scaledPair a d t).2 * 2 ^ 53 : ℕ) : ℚ) := by
    calc ((scaledPair a d t).1 : ℚ) < ((2 ^ 53 : ℕ) : ℚ) * ((scaledPair a d t).2 : ℚ) := hlt
      _ = (((scaledPair a d t).2 * 2 ^ 53 : ℕ) : ℚ) := by push_cast; ring
  exact_mod_cast this

theorem roundPosRat64_spec (a d q : ℕ) (t : ℤ) (ha : 1 ≤ a) (hd : 1 ≤ d)
    (h : roundPosRat64 a d = some (q, t)) :
    q ≤ 2 ^ 53 ∧ |(q : ℚ) * (2 : ℚ) ^ t - (a : ℚ) / (d : ℚ)| ≤ (2 : ℚ) ^ t / 2 := by
  unfold roundPosRat64 at h
  dsimp only at h
  have hup : (a : ℚ) / (d : ℚ) <
      (2 : ℚ) ^ (max (fLog2 a d - 52) (-1074) + 53) := by
    calc (a : ℚ) / (d : ℚ) < (2 : ℚ) ^ (fLog2 a d + 1) := fLog2_upper a d ha hd
      _ ≤ (2 : ℚ) ^ (max (fLog2 a d - 52) (-1074) + 53) := by
          apply zpow_le_zpow_right₀ (by norm_num)
          omega
  have hq53 := sigAt_le a d (max (fLog2 a d - 52) (-1074)) hd hup
  have herr := sigAt_err a d (max (fLog2 a d - 52) (-1074)) hd
  by_cases hren : sigAt a d (max (fLog2 a d - 52) (-1074)) = 2 ^ 53
  · rw [if_pos hren, if_pos hren] at h
    split at h
    next hov => exact absurd h (by simp)
    next hov =>
      injection h with h1
      injection h1 with hq ht
      subst hq
      subst ht
      constructor
      · norm_num
      · rw [hren] at herr
        calc |((2 ^ 52 : ℕ) : ℚ) * (2 : ℚ) ^ (max (fLog2 a d - 52) (-1074) + 1) - (a : ℚ) / (d : ℚ)|
            = |((2 ^ 53 : ℕ) : ℚ) * (2 : ℚ) ^ (max (fLog2 a d - 52) (-1074)) - (a : ℚ) / (d : ℚ)| := by
              rw [zpow_add₀ (by norm_num : (2 : ℚ) ≠ 0), zpow_one]
              norm_num
              ring_nf
          _ ≤ (2 : ℚ) ^ (max (fLog2 a d - 52) (-1074)) / 2 := herr
          _ ≤ (2 : ℚ) ^ (max (fLog2 a d - 52) (-1074) + 1) / 2 := by
              apply div_le_div_of_nonneg_right ?_ (by norm_num)
              exact zpow_le_zpow_right₀ (by norm_num) (by omega)
  · rw [if_neg hren, if_neg hren] at h
    split at h
    next hov => exact absurd h (by simp)
    next hov =>
      injection h with h1
      injection h1 with hq ht
      subst hq
      subst ht
      exact ⟨hq53, herr⟩

theorem B64.toRat_nonneg_t {v : B64} (h : 0 ≤ v.t) :
    v.toRat = ((v.m * (2 ^ v.t.toNat : ℕ) : ℤ) : ℚ) := by
  unfold B64.toRat
  rw [two_zpow_nonneg_eq h]
  push_cast
  ring

theorem B64.toRat_neg_t {v : B64} (h : ¬ 0 ≤ v.t) :
    v.toRat = (v.m : ℚ) / ((2 ^ (-v.t).toNat : ℕ) : ℚ) := by
  unfold B64.toRat
  rw [two_zpow_neg_eq h]
  push_cast
  ring

theorem ratToB64_finite_spec {n : ℤ} {d : ℕ} {f : B64} (hd : 1 ≤ d)
    (h : ratToB64 n d = F64b.finite f) :
    f.m.natAbs ≤ 2 ^ 53 ∧ |f.toRat - (n : ℚ) / (d : ℚ)| ≤ (2 : ℚ) ^ f.t / 2 := by
  unfold ratToB64 at h
  by_cases hn : n = 0
  · rw [if_pos hn] at h
    injection h with h1
    subst h1
    subst hn
    constructor
    · norm_num
    · unfold B64.toRat
      norm_num
  · rw [if_neg hn] at h
    cases hr : roundPosRat64 n.natAbs d with
    | none => rw [hr] at h; exact absurd h (by simp)
    | some pr =>
      obtain ⟨q, t⟩ := pr
      rw [hr] at h
      injection h with h1
      have ha : 1 ≤ n.natAbs := by omega
      have hspec := roundPosRat64_spec n.natAbs d q t ha hd hr
      subst h1
      by_cases hneg : n < 0
      · constructor
        · simp only [if_pos hneg]
          simpa using hspec.1
        · simp only [B64.toRat, if_pos hneg]
          have hnq : ((n : ℚ)) < 0 := by exact_mod_cast hneg
          have hcast : (n : ℚ) = -((n.natAbs : ℕ) : ℚ) := by
            rw [Int.cast_natAbs]
            push_cast
            rw [abs_of_neg hnq]
            ring
          rw [hcast]
          rw [show ((-(q : ℤ) : ℤ) : ℚ) * (2 : ℚ) ^ t - -((n.natAbs : ℕ) : ℚ) / (d : ℚ) =
              -(((q : ℕ) : ℚ) * (2 : ℚ) ^ t - ((n.natAbs : ℕ) : ℚ) / (d : ℚ)) by push_cast; ring]
          rw [abs_neg]
          exact hspec.2
      · constructor
        · simp only [if_neg hneg]
          simpa using hspec.1
        · simp only [B64.toRat, if_neg hneg]
          have hnq : (0 : ℚ) ≤ (n : ℚ) := by exact_mod_cast (show (0 : ℤ) ≤ n by omega)
          have hcast : (n : ℚ) = ((n.natAbs : ℕ) : ℚ) := by
            rw [Int.cast_natAbs]
            push_cast
            rw [abs_of_nonneg hnq]
          rw [hcast]
          rw [show (((q : ℤ) : ℤ) : ℚ) * (2 : ℚ) ^ t = ((q : ℕ) : ℚ) * (2 : ℚ) ^ t by push_cast; ring]
          exact hspec.2

theorem d10ToB64_finite_spec {x : D10} {f : B64} (h : d10ToB64 x = F64b.finite f) :
    f.m.natAbs ≤ 2 ^ 53 ∧ |f.toRat - x.toRat| ≤ (2 : ℚ) ^ f.t / 2 := by
  unfold d10ToB64 at h
  split at h
  next he =>
    have hs := ratToB64_finite_spec (le_refl 1) h
    rw [show ((x.m * (10 ^ x.e10.toNat : ℕ) : ℤ) : ℚ) / ((1 : ℕ) : ℚ) = x.toRat by
      rw [D10.toRat_nonneg_e he]; norm_num] at hs
    exact hs
  next he =>
    have hd10 : 1 ≤ 10 ^ (-x.e10).toNat := Nat.one_le_pow _ _ (by norm_num)
    have hs := ratToB64_finite_spec hd10 h
    rw [show ((x.m : ℤ) : ℚ) / ((10 ^ (-x.e10).toNat : ℕ) : ℚ) = x.toRat by
      rw [D10.toRat_neg_e he]] at hs
    exact hs

theorem f64bMul100_finite_spec {v g : B64} (h : f64bMul100 (F64b.finite v) = F64b.finite g) :
    g.m.natAbs ≤ 2 ^ 53 ∧ |g.toRat - v.toRat * 100| ≤ (2 : ℚ) ^ g.t / 2 := by
  have h2 : (if 0 ≤ v.t then ratToB64 (v.m * 100 * (2 ^ v.t.toNat : ℕ)) 1
      else ratToB64 (v.m * 100) (2 ^ (-v.t).toNat)) = F64b.finite g := h
  clear h
  rename' h2 => h
  split at h
  next ht =>
    have hs := ratToB64_finite_spec (le_refl 1) h
    rw [show ((v.m * 100 * (2 ^ v.t.toNat : ℕ) : ℤ) : ℚ) / ((1 : ℕ) : ℚ) = v.toRat * 100 by
      rw [B64.toRat_nonneg_t ht]; push_cast; ring] at hs
    exact hs
  next ht =>
    have h2 : 1 ≤ 2 ^ (-v.t).toNat := Nat.one_le_pow _ _ (by norm_num)
    have hs := ratToB64_finite_spec h2 h
    rw [show ((v.m * 100 : ℤ) : ℚ) / ((2 ^ (-v.t).toNat : ℕ) : ℚ) = v.toRat * 100 by
      rw [B64.toRat_neg_t ht]; push_cast; ring] at hs
    exact hs

theorem grid_exact {f : B64} {x : ℚ} (hb : |f.toRat - x| ≤ (2 : ℚ) ^ f.t / 2)
    {k : ℤ} (hx : x = (k : ℚ) * (2 : ℚ) ^ f.t) : f.toRat = x := by
  have hpos := two_zpow_pos f.t
  have hdiff : f.toRat - x = ((f.m - k : ℤ) : ℚ) * (2 : ℚ) ^ f.t := by
    unfold B64.toRat
    rw [hx]
    push_cast
    ring
  rw [hdiff, abs_mul, abs_of_pos hpos] at hb
  have hle : |((f.m - k : ℤ) : ℚ)| ≤ 1 / 2 := by nlinarith [hpos]
  have hzero : f.m - k = 0 := by
    by_contra hne
    have h1 : (1 : ℚ) ≤ |((f.m - k : ℤ) : ℚ)| := by
      rw [← Int.cast_abs]
      exact_mod_cast Int.one_le_abs hne
    linarith
  have hfz : f.toRat - x = 0 := by
    rw [hdiff, hzero]
    norm_num
  linarith

theorem roundB64_eq (v : B64) : roundB64 v = roundHalfAway v.toRat := by
  unfold roundB64
  by_cases he : 0 ≤ v.t
  · rw [if_pos he, B64.toRat_nonneg_t he, roundHalfAway_intCast]
  · rw [if_neg he, B64.toRat_neg_t he]
    have hk : 0 < 2 ^ (-v.t).toNat := Nat.pos_pow_of_pos _ (by norm_num)
    by_cases hm : 0 ≤ v.m
    · rw [if_pos hm]
      rw [show (v.m : ℚ) = ((v.m.toNat : ℕ) : ℚ) by
        exact_mod_cast (Int.toNat_of_nonneg hm).symm]
      rw [roundHalfAway_natCast_div hk]
    · rw [if_neg hm]
      have hneg : (v.m : ℚ) / ((2 ^ (-v.t).toNat : ℕ) : ℚ) =
          -((((-v.m).toNat : ℕ) : ℚ) / ((2 ^ (-v.t).toNat : ℕ) : ℚ)) := by
        rw [show (((-v.m).toNat : ℕ) : ℚ) = ((-v.m : ℤ) : ℚ) by
          exact_mod_cast congrArg (fun z : ℤ => (z : ℚ)) (Int.toNat_of_nonneg (show (0 : ℤ) ≤ -v.m by omega))]
        push_cast
        ring
      rw [hneg]
      have hfrac_nonneg : (0 : ℚ) ≤ (((-v.m).toNat : ℕ) : ℚ) / ((2 ^ (-v.t).toNat : ℕ) : ℚ) := by
        positivity
      by_cases hfp : (0 : ℚ) ≤ -((((-v.m).toNat : ℕ) : ℚ) / ((2 ^ (-v.t).toNat : ℕ) : ℚ))
      · have hm0 : (-v.m).toNat = 0 := by
          have hz : (((-v.m).toNat : ℕ) : ℚ) / ((2 ^ (-v.t).toNat : ℕ) : ℚ) = 0 :=
            le_antisymm (by linarith) hfrac_nonneg
          have hkq : ((2 ^ (-v.t).toNat : ℕ) : ℚ) ≠ 0 := by positivity
          rcases div_eq_zero_iff.mp hz with h0 | h0
          · exact_mod_cast h0
          · exact absurd h0 hkq
        omega
      · unfold roundHalfAway
        rw [if_neg hfp, neg_neg]
        rw [show (((-v.m).toNat : ℕ) : ℚ) / ((2 ^ (-v.t).toNat : ℕ) : ℚ) + 1 / 2 =
            ((2 * (-v.m).toNat + 2 ^ (-v.t).toNat : ℕ) : ℚ) / ((2 * 2 ^ (-v.t).toNat : ℕ) : ℚ) by
          have hkq : ((2 ^ (-v.t).toNat : ℕ) : ℚ) ≠ 0 := by positivity
          push_cast
          field_simp
          ring]
        rw [floor_natCast_div]

theorem truncB64_int (z : ℤ) : truncB64 ⟨z, 0⟩ = z := by
  unfold truncB64
  norm_num

theorem clampI64_range (z : ℤ) : I64MIN ≤ clampI64 z ∧ clampI64 z ≤ I64MAX := by
  unfold clampI64
  constructor
  · exact le_max_left _ _
  · apply max_le
    · norm_num [I64MIN, I64MAX]
    · exact min_le_left _ _

theorem f64bAsI64_range (w : F64b) : I64MIN ≤ f64bAsI64 w ∧ f64bAsI64 w ≤ I64MAX := by
  cases w with
  | finite v => exact clampI64_range _
  | inf p => cases p <;> exact ⟨by decide, by decide⟩
  | nan => exact ⟨by decide, by decide⟩

theorem get_pay_i64b_ok_range (s : String) (z : ℤ) (h : get_pay_i64b s = Except.ok z) :
    I64MIN ≤ z ∧ z ≤ I64MAX := by
  unfold get_pay_i64b at h
  cases hp : parseF64b s.data with
  | none => rw [hp] at h; exact absurd h (by simp)
  | some v =>
    rw [hp] at h
    injection h with h1
    subst h1
    exact f64bAsI64_range _

theorem get_pay_i64b_none {s : String} (h : parseF64 s.data = none) :
    get_pay_i64b s = Except.error "Invalid input string" := by
  unfold get_pay_i64b parseF64b
  rw [h]
  rfl

theorem parseF64b_finite {s : String} {x : D10} (h : parseF64 s.data = some (F64.finite x)) :
    parseF64b s.data = some (d10ToB64 x) := by
  unfold parseF64b
  rw [h]
  rfl

theorem get_pay_i64b_eval {s : String} {w : F64b} (h : parseF64b s.data = some w) :
    get_pay_i64b s = Except.ok (f64bAsI64 (f64bRound (f64bMul100 w))) := by
  unfold get_pay_i64b
  rw [h]

theorem f64b_pipeline_finite (g : B64) :
    f64bAsI64 (f64bRound (F64b.finite g)) = clampI64 (roundHalfAway g.toRat) := by
  show clampI64 (truncB64 ⟨roundB64 g, 0⟩) = _
  rw [truncB64_int, roundB64_eq]

theorem f64b_pipeline_inf (p : Bool) :
    f64bAsI64 (f64bRound (F64b.inf p)) = if p then I64MAX else I64MIN := rfl

/-- C4 (amended): over the bit-accurate binary64 model of `get_pay_i64`: a
string that does not parse as a float yields the explicit invalid-input error
(never a silent zero); every `Ok` result lies in the `i64` range; and for a
string parsing as a finite literal of exact decimal value `x`, the parsed
double `f` has a 53-bit significand and lies within half an ulp of `x`
(exactly `x` whenever `x` is representable at `f`'s exponent), the IEEE
product `g` of `f` and `100.0` likewise lies within half an ulp of
`f * 100` (exact when representable), and the program returns `Ok` of
`round(g)` (half away from zero) saturated into the `i64` range; overflow
to an infinity at either stage saturates to the matching `i64` extreme. -/
theorem C4_get_pay_round (s : String) :
    (parseF64 s.data = none → get_pay_i64b s = Except.error "Invalid input string") ∧
    (∀ z : ℤ, get_pay_i64b s = Except.ok z → I64MIN ≤ z ∧ z ≤ I64MAX) ∧
    (∀ x : D10, parseF64 s.data = some (F64.finite x) →
      (∀ f : B64, d10ToB64 x = F64b.finite f →
        f.m.natAbs ≤ 2 ^ 53 ∧
        |f.toRat - x.toRat| ≤ (2 : ℚ) ^ f.t / 2 ∧
        (∀ k : ℤ, x.toRat = (k : ℚ) * (2 : ℚ) ^ f.t → f.toRat = x.toRat) ∧
        (∀ g : B64, f64bMul100 (F64b.finite f) = F64b.finite g →
          g.m.natAbs ≤ 2 ^ 53 ∧
          |g.toRat - f.toRat * 100| ≤ (2 : ℚ) ^ g.t / 2 ∧
          (∀ k : ℤ, f.toRat * 100 = (k : ℚ) * (2 : ℚ) ^ g.t → g.toRat = f.toRat * 100) ∧
          get_pay_i64b s = Except.ok (clampI64 (roundHalfAway g.toRat))) ∧
        (∀ p : Bool, f64bMul100 (F64b.finite f) = F64b.inf p →
          get_pay_i64b s = Except.ok (if p then I64MAX else I64MIN))) ∧
      (∀ p : Bool, d10ToB64 x = F64b.inf p →
        get_pay_i64b s = Except.ok (if p then I64MAX else I64MIN))) := by
  refine ⟨fun h => get_pay_i64b_none h, fun z h => get_pay_i64b_ok_range s z h, ?_⟩
  intro x hx
  constructor
  · intro f hf
    obtain ⟨hm, herr⟩ := d10ToB64_finite_spec hf
    refine ⟨hm, herr, fun k hk => grid_exact herr hk, ?_, ?_⟩
    · intro g hg
      obtain ⟨hm2, herr2⟩ := f64bMul100_finite_spec hg
      refine ⟨hm2, herr2, fun k hk => grid_exact herr2 hk, ?_⟩
      rw [get_pay_i64b_eval (by rw [parseF64b_finite hx, hf])]
      rw [hg, f64b_pipeline_finite]
    · intro p hp
      rw [get_pay_i64b_eval (by rw [parseF64b_finite hx, hf])]
      rw [hp, f64b_pipeline_inf]
  · intro p hp
    rw [get_pay_i64b_eval (by rw [parseF64b_finite hx, hp])]
    rfl

/-- Closed witness for C4 at the concrete inputs "0.285" (hypotheses
discharged by computation) and the non-parsing "85,000". -/
theorem C4_get_pay_round_witness :
    parseF64 "0.285".data = some (F64.finite ⟨285, -3⟩) ∧
    d10ToB64 ⟨285, -3⟩ = F64b.finite ⟨5134103575202365, -54⟩ ∧
    f64bMul100 (F64b.finite ⟨5134103575202365, -54⟩) = F64b.finite ⟨8022036836253695, -48⟩ ∧
    get_pay_i64b "0.285" =
      Except.ok (clampI64 (roundHalfAway (B64.toRat ⟨8022036836253695, -48⟩))) ∧
    get_pay_i64b "85,000" = Except.error "Invalid input string" := by
  refine ⟨by decide, by decide, by decide, ?_, ?_⟩
  · exact ((((C4_get_pay_round "0.285").2.2 ⟨285, -3⟩ (by decide)).1 ⟨5134103575202365, -54⟩
      (by decide)).2.2.2.1 ⟨8022036836253695, -48⟩ (by decide)).2.2.2
  · exact (C4_get_pay_round "85,000").1 (by decide)

/-- C4 counterexample: Rust parses and multiplies in IEEE binary64, so
`get_pay_i64` does not return `round(f * 100)` of the literal's exact value
on every parsing input: "0.285" parses, yet the double product falls just
below 28.5 and the program returns 28 where `round(0.285 * 100) = 29`; and
for "100000000000000000" the cents value 10^19 overflows `i64`, the
saturating cast returning `i64::MAX` instead. -/
theorem C4_counterexample :
    parseF64 "0.285".data = some (F64.finite ⟨285, -3⟩) ∧
    D10.toRat ⟨285, -3⟩ = 285 / 1000 ∧
    roundHalfAway ((285 / 1000 : ℚ) * 100) = 29 ∧
    get_pay_i64b "0.285" = Except.ok 28 ∧
    ((28 : ℤ) ≠ 29) ∧
    parseF64 "100000000000000000".data = some (F64.finite ⟨100000000000000000, 0⟩) ∧
    roundHalfAway ((100000000000000000 : ℚ) * 100) = 10000000000000000000 ∧
    get_pay_i64b "100000000000000000" = Except.ok 9223372036854775807 ∧
    ((9223372036854775807 : ℤ) ≠ 10000000000000000000) := by
  refine ⟨by decide, ?_, ?_, by decide, by decide, by decide, ?_, by decide, by decide⟩
  · unfold D10.toRat
    rw [show (⟨285, -3⟩ : D10).m = 285 from rfl, show (⟨285, -3⟩ : D10).e10 = -3 from rfl]
    rw [show ((-3 : ℤ)) = -((3 : ℕ) : ℤ) by norm_num, zpow_neg, zpow_natCast]
    norm_num
  · unfold roundHalfAway
    rw [if_pos (by norm_num)]
    rw [show ((285 : ℚ) / 1000 * 100 + 1 / 2) = ((29 : ℤ) : ℚ) by norm_num]
    exact Int.floor_intCast 29
  · rw [show ((100000000000000000 : ℚ) * 100) = ((10000000000000000000 : ℤ) : ℚ) by norm_num]
    rw [roundHalfAway_intCast]

/- ===================== Section F: the salary-range scanner ===================== -/

/-- Character class `[\d,]` of the salary regex. -/
def isRunCh (c : Char) : Bool := isDigitCh c || c = ','

/-- Character class `[a-z]` of the salary regex. -/
def isLowerAl (c : Char) : Bool := decide (97 ≤ c.toNat) && decide (c.toNat ≤ 122)

/-- One anchored match attempt of the salary regex
`\D([\d,]+\.\d\d)\/([a-z]*)` (src/utils.rs:45) at the current position,
returning (capture group 1, capture group 2, rest after the match end).
The greedy `[\d,]+` is forced here: it must stop at the first character
outside `[\d,]`, and since `.` is not in `[\d,]` no shorter run can expose
the required `\.`, so the leftmost-first match of the `regex` crate is
computed without backtracking. -/
def salaryMatchAt : List Char → Option (List Char × List Char × List Char)
  | [] => none
  | c :: rest =>
    if isDigitCh c then none
    else
      let run := rest.takeWhile isRunCh
      let r1 := rest.dropWhile isRunCh
      if run.isEmpty then none
      else
        match r1 with
        | p :: d1 :: d2 :: sl :: r2 =>
          if p = '.' && isDigitCh d1 && isDigitCh d2 && sl = '/' then
            some (run ++ [p, d1, d2], r2.takeWhile isLowerAl, r2.dropWhile isLowerAl)
          else none
        | _ => none

theorem length_dropWhile_le (p : Char → Bool) (l : List Char) :
    (l.dropWhile p).length ≤ l.length :=
  List.Sublist.length_le (List.dropWhile_sublist p)

theorem salaryMatchAt_cons (c : Char) (rest : List Char) :
    salaryMatchAt (c :: rest) =
      (if isDigitCh c then none
       else
         if (rest.takeWhile isRunCh).isEmpty then none
         else
           match rest.dropWhile isRunCh with
           | p :: d1 :: d2 :: sl :: r2 =>
             if p = '.' && isDigitCh d1 && isDigitCh d2 && sl = '/' then
               some (rest.takeWhile isRunCh ++ [p, d1, d2],
                     r2.takeWhile isLowerAl, r2.dropWhile isLowerAl)
             else none
           | _ => none) := rfl

theorem salaryMatchAt_rest_length (c : Char) (rest : List Char) (cap unit r3 : List Char)
    (h : salaryMatchAt (c :: rest) = some (cap, unit, r3)) : r3.length < (c :: rest).length := by
  rw [salaryMatchAt_cons] at h
  by_cases hd : isDigitCh c
  · rw [if_pos hd] at h; simp at h
  · rw [if_neg hd] at h
    by_cases hrun : (rest.takeWhile isRunCh).isEmpty
    · rw [if_pos hrun] at h; simp at h
    · rw [if_neg hrun] at h
      rcases hsp : rest.dropWhile isRunCh with _ | ⟨p, _ | ⟨d1, _ | ⟨d2, _ | ⟨sl, r2⟩⟩⟩⟩ <;>
        rw [hsp] at h
      · simp at h
      · simp at h
      · simp at h
      · simp at h
      · dsimp only at h
        by_cases hg : p = '.' && isDigitCh d1 && isDigitCh d2 && sl = '/'
        · rw [if_pos hg] at h
          simp only [Option.some.injEq, Prod.mk.injEq] at h
          have h3 : r3 = r2.dropWhile isLowerAl := h.2.2.symm
          have hle1 : r3.length ≤ r2.length := by
            rw [h3]; exact length_dropWhile_le _ _
          have hle2 : (rest.dropWhile isRunCh).length ≤ rest.length :=
            length_dropWhile_le _ _
          rw [hsp] at hle2
          simp only [List.length_cons] at hle2 ⊢
          omega
        · rw [if_neg hg] at h; simp at h

/-- Scanner loop of `parse_salary` (src/utils.rs:44-57), the embedding of
`captures_iter`: try a match at each position; on a match, strip the commas
from capture group 1, parse it as `f64`, push `(value, capture group 2)` when
the parse succeeds, and resume after the match end; otherwise advance one
character.  The scan consumes at least one character per step, so the input
length is enough fuel (`salaryMatchAt_rest_length`); the fuel argument only
makes the recursion structural. -/
def parseSalaryAux : Nat → List Char → List (F64 × String)
  | 0, _ => []
  | _, [] => []
  | fuel + 1, c :: rest =>
    match salaryMatchAt (c :: rest) with
    | some (cap, unit, r3) =>
      match parseF64 (cap.filter (fun x => x != ',')) with
      | some v => (v, ⟨unit⟩) :: parseSalaryAux fuel r3
      | none => parseSalaryAux fuel r3
    | none => parseSalaryAux fuel rest

/-- Embedding of `parse_salary` (src/utils.rs:44-57). -/
def parse_salary (s : String) : List (F64 × String) :=
  parseSalaryAux s.data.length s.data

example : parse_salary "$85,000.00/yr - $60,000.00/yr" =
    [(F64.finite ⟨8500000, -2⟩, "yr"), (F64.finite ⟨6000000, -2⟩, "yr")] := by decide
example : parse_salary "$85,000.00/yr" = [(F64.finite ⟨8500000, -2⟩, "yr")] := by decide
example : parse_salary "no salary here" = [] := by decide
example : parse_salary "$120,000.00/hr" = [(F64.finite ⟨12000000, -2⟩, "hr")] := by decide

/- ===================== Section G: the scraper pay slots (C1, C2) ===================== -/

/-- The character of a single decimal digit value. -/
def digitChar (n : ℕ) : Char := Char.ofNat (48 + n)

/-- Decimal digit string of a natural number, most significant digit first,
with enough fuel (any fuel above the digit count; `n + 1` always suffices). -/
def natToDigits : ℕ → ℕ → List Char
  | 0, _ => []
  | fuel + 1, n => if n < 10 then [digitChar n] else natToDigits fuel (n / 10) ++ [digitChar (n % 10)]

/-- Exactly `k` least-significant decimal digits of `a`, zero padded. -/
def natDigitsFix : ℕ → ℕ → List Char
  | 0, _ => []
  | k + 1, a => natDigitsFix k (a / 10) ++ [digitChar (a % 10)]

/-- Strip trailing zero decimals: `stripZeros a k` divides out factors of 10
while decimals remain, returning the reduced value and decimal count. -/
def stripZeros : ℕ → ℕ → ℕ × ℕ
  | a, 0 => (a, 0)
  | a, k + 1 => if a % 10 = 0 then stripZeros (a / 10) k else (a, k + 1)

/-- Model of Rust `Display` for `f64` (the `format!("{salary}")` call in
src/scraper.rs:70/76) on the exact value: the shortest plain decimal string,
i.e. the mantissa with trailing fractional zeros removed, a leading `-` for
negative values, and no decimal point for whole values.  (`Display` for `f64`
never uses scientific notation; for the two-decimal salary values produced by
`parse_salary` this shortest form is exactly what Rust prints.) -/
def formatF64 : F64 → List Char
  | F64.nan => ['N', 'a', 'N']
  | F64.inf p => if p then ['i', 'n', 'f'] else ['-', 'i', 'n', 'f']
  | F64.finite d =>
    let a := d.m.natAbs
    let core :=
      if 0 ≤ d.e10 then natToDigits (a * 10 ^ d.e10.toNat + 1) (a * 10 ^ d.e10.toNat)
      else
        let (b, k) := stripZeros a (-d.e10).toNat
        if k = 0 then natToDigits (b + 1) b
        else natToDigits (b / 10 ^ k + 1) (b / 10 ^ k) ++ '.' :: natDigitsFix k (b % 10 ^ k)
    if d.m < 0 then '-' :: core else core

example : formatF64 (F64.finite ⟨8500000, -2⟩) = "85000".data := by decide
example : formatF64 (F64.finite ⟨1205, -1⟩) = "120.5".data := by decide
example : formatF64 (F64.finite ⟨45, -2⟩) = "0.45".data := by decide
example : formatF64 (F64.finite ⟨-1250, -2⟩) = "-12.5".data := by decide
example : formatF64 (F64.finite ⟨3, 2⟩) = "300".data := by decide

/-- Model of `get_pay_i64(format!("{salary}").as_str()).expect(..)` from
src/scraper.rs:68-79: format the matched value back to a string, parse it as
money; `some` is the computed cents, `none` models the `expect` panic. -/
def payFromParsed (entry : F64 × String) : Option ℤ :=
  match get_pay_i64 ⟨formatF64 entry.1⟩ with
  | Except.ok v => some v
  | Except.error _ => none

/-- Embedding of the salary-to-pay-slot conversion in `fetch_job_details`
(src/scraper.rs:65-79): `parsed.get(1)` (the second match) feeds `max_pay`,
`parsed.get(0)` (the first match) feeds `min_pay`; a missing entry leaves the
slot `None`.  The outer `Option` models the `expect` panics: `none` means the
function panicked, `some (min_pay, max_pay)` its normal result. -/
def scraper_pay (text : String) : Option (Option ℤ × Option ℤ) :=
  let parsed := parse_salary text
  let maxStep : Option (Option ℤ) :=
    match parsed.get? 1 with
    | some e => (payFromParsed e).map some
    | none => some none
  let minStep : Option (Option ℤ) :=
    match parsed.get? 0 with
    | some e => (payFromParsed e).map some
    | none => some none
  match minStep, maxStep with
  | some mn, some mx => some (mn, mx)
  | _, _ => none

example : scraper_pay "$85,000.00/yr - $60,000.00/yr" = some (some 8500000, some 6000000) := by decide
example : scraper_pay "$85,000.00/yr" = some (some 8500000, none) := by decide
example : scraper_pay "" = some (none, none) := by decide

theorem isDigitCh_digitChar {n : ℕ} (h : n < 10) : isDigitCh (digitChar n) = true := by
  unfold isDigitCh digitChar
  have h1 : (Char.ofNat (48 + n)).toNat = 48 + n := charOfNat_toNat (by omega)
  rw [h1]
  simp only [Bool.and_eq_true, decide_eq_true_eq]
  omega

theorem natToDigits_digits : ∀ (f n : ℕ), ∀ c ∈ natToDigits f n, isDigitCh c = true := by
  intro f
  induction f with
  | zero => intro n c hc; simp [natToDigits] at hc
  | succ f ih =>
    intro n c hc
    unfold natToDigits at hc
    by_cases hn : n < 10
    · simp [hn] at hc
      rw [hc]
      exact isDigitCh_digitChar hn
    · simp only [hn, if_false, List.mem_append] at hc
      rcases hc with hc | hc
      · exact ih _ c hc
      · simp at hc
        rw [hc]
        exact isDigitCh_digitChar (Nat.mod_lt _ (by omega))

theorem natDigitsFix_digits : ∀ (k a : ℕ), ∀ c ∈ natDigitsFix k a, isDigitCh c = true := by
  intro k
  induction k with
  | zero => intro a c hc; simp [natDigitsFix] at hc
  | succ k ih =>
    intro a c hc
    unfold natDigitsFix at hc
    simp only [List.mem_append] at hc
    rcases hc with hc | hc
    · exact ih _ c hc
    · simp at hc
      rw [hc]
      exact isDigitCh_digitChar (Nat.mod_lt _ (by omega))

theorem natToDigits_ne_nil (f n : ℕ) : natToDigits (f + 1) n ≠ [] := by
  unfold natToDigits
  by_cases hn : n < 10
  · simp [hn]
  · simp only [hn, if_false]
    intro habs
    have := List.append_eq_nil.mp habs
    simp at this

theorem natDigitsFix_length (k a : ℕ) : (natDigitsFix k a).length = k := by
  induction k generalizing a with
  | zero => rfl
  | succ k ih =>
    unfold natDigitsFix
    simp [ih]

theorem takeWhile_all {p : Char → Bool} : ∀ {l : List Char}, (∀ c ∈ l, p c = true) →
    l.takeWhile p = l := by
  intro l
  induction l with
  | nil => intro _; rfl
  | cons c rest ih =>
    intro h
    rw [List.takeWhile_cons]
    rw [h c (List.mem_cons_self c rest)]
    simp only [if_true]
    rw [ih (fun x hx => h x (List.mem_cons_of_mem c hx))]

theorem dropWhile_all {p : Char → Bool} : ∀ {l : List Char}, (∀ c ∈ l, p c = true) →
    l.dropWhile p = [] := by
  intro l
  induction l with
  | nil => intro _; rfl
  | cons c rest ih =>
    intro h
    rw [List.dropWhile_cons]
    rw [h c (List.mem_cons_self c rest)]
    simp only [if_true]
    exact ih (fun x hx => h x (List.mem_cons_of_mem c hx))

theorem takeWhile_append_stop {p : Char → Bool} {xs : List Char} {y : Char} (r : List Char)
    (hxs : ∀ c ∈ xs, p c = true) (hy : p y = false) :
    (xs ++ y :: r).takeWhile p = xs := by
  induction xs with
  | nil => simp [List.takeWhile_cons, hy]
  | cons c t ih =>
    rw [List.cons_append, List.takeWhile_cons]
    rw [hxs c (List.mem_cons_self c t)]
    simp only [if_true]
    rw [ih (fun x hx => hxs x (List.mem_cons_of_mem c hx))]

theorem dropWhile_append_stop {p : Char → Bool} {xs : List Char} {y : Char} (r : List Char)
    (hxs : ∀ c ∈ xs, p c = true) (hy : p y = false) :
    (xs ++ y :: r).dropWhile p = y :: r := by
  induction xs with
  | nil => simp [List.dropWhile_cons, hy]
  | cons c t ih =>
    rw [List.cons_append, List.dropWhile_cons]
    rw [hxs c (List.mem_cons_self c t)]
    simp only [if_true]
    exact ih (fun x hx => hxs x (List.mem_cons_of_mem c hx))

theorem parseSign_no_sign {c : Char} (r : List Char) (h1 : c ≠ '+') (h2 : c ≠ '-') :
    parseSign (c :: r) = (false, c :: r) := by
  unfold parseSign
  simp [h1, h2]

theorem digit_ne_plus {c : Char} (h : isDigitCh c = true) : c ≠ '+' := by
  intro habs
  unfold isDigitCh at h
  simp only [Bool.and_eq_true, decide_eq_true_eq] at h
  rw [habs] at h
  simp at h

theorem digit_ne_minus {c : Char} (h : isDigitCh c = true) : c ≠ '-' := by
  intro habs
  unfold isDigitCh at h
  simp only [Bool.and_eq_true, decide_eq_true_eq] at h
  rw [habs] at h
  simp at h

theorem toLowerCh_low {c : Char} (h : c.toNat < 65) : toLowerCh c = c := by
  unfold toLowerCh
  rw [if_neg (by omega)]

theorem parseSpecial_none_of_low {neg : Bool} {l : List Char} {c : Char}
    (hc : c ∈ l) (hlow : c.toNat < 65) : parseSpecial neg l = none := by
  have hword : ∀ w ∈ (['i', 'n', 'f'] : List Char), 97 ≤ w.toNat := by decide
  have hword2 : ∀ w ∈ (['i', 'n', 'f', 'i', 'n', 'i', 't', 'y'] : List Char), 97 ≤ w.toNat := by
    decide
  have hword3 : ∀ w ∈ (['n', 'a', 'n'] : List Char), 97 ≤ w.toNat := by decide
  have hmem : ∀ (w : List Char), l.map toLowerCh = w → c ∈ w := by
    intro w hw
    rw [← hw]
    rw [show c = toLowerCh c from (toLowerCh_low hlow).symm]
    exact List.mem_map_of_mem toLowerCh hc
  unfold parseSpecial
  rw [if_neg, if_neg]
  · intro habs
    exact absurd (hword3 c (hmem _ habs)) (by omega)
  · intro habs
    rcases Bool.or_eq_true _ _ |>.mp (by exact habs) with h | h
    · exact absurd (hword c (hmem _ (by simpa using h))) (by omega)
    · exact absurd (hword2 c (hmem _ (by simpa using h))) (by omega)

theorem digit_toNat_low {c : Char} (h : isDigitCh c = true) : c.toNat < 65 := by
  unfold isDigitCh at h
  simp only [Bool.and_eq_true, decide_eq_true_eq] at h
  omega

theorem parseMantissa_digits {ds : List Char} (hne : ds ≠ [])
    (hd : ∀ c ∈ ds, isDigitCh c = true) :
    parseMantissa ds = some (⟨(natOfDigits ds : ℤ), 0⟩, []) := by
  unfold parseMantissa
  rw [takeWhile_all hd, dropWhile_all hd]
  dsimp only
  rw [if_neg (by simpa using hne)]

theorem parseMantissa_digits_dot {ds fs : List Char}
    (hd : ∀ c ∈ ds, isDigitCh c = true) (hf : ∀ c ∈ fs, isDigitCh c = true)
    (hfne : fs ≠ []) :
    parseMantissa (ds ++ '.' :: fs) =
      some (⟨(natOfDigits (ds ++ fs) : ℤ), -(fs.length : ℤ)⟩, []) := by
  unfold parseMantissa
  rw [takeWhile_append_stop fs hd (by decide), dropWhile_append_stop fs hd (by decide)]
  dsimp only
  split
  next r2 heq =>
    obtain rfl : fs = r2 := by injection heq
    rw [takeWhile_all hf, dropWhile_all hf]
    rw [if_neg (by simp [hfne])]
  next hx heq =>
    exact absurd (heq fs rfl) (fun h => h)

theorem parseF64_digits {ds : List Char} (hne : ds ≠ [])
    (hd : ∀ c ∈ ds, isDigitCh c = true) :
    parseF64 ds = some (F64.finite ⟨(natOfDigits ds : ℤ), 0⟩) := by
  obtain ⟨c, rest, rfl⟩ : ∃ c rest, ds = c :: rest := by
    cases ds with
    | nil => exact absurd rfl hne
    | cons c rest => exact ⟨c, rest, rfl⟩
  have hc : isDigitCh c = true := hd c (List.mem_cons_self c rest)
  unfold parseF64
  rw [parseSign_no_sign rest (digit_ne_plus hc) (digit_ne_minus hc)]
  dsimp only
  rw [parseSpecial_none_of_low (List.mem_cons_self c rest) (digit_toNat_low hc)]
  rw [parseMantissa_digits hne hd]
  dsimp only [parseExpSuffix]
  norm_num

theorem digitCh_or_dot_props {c : Char} (hcor : isDigitCh c = true ∨ c = '.') :
    c.toNat < 65 ∧ c ≠ '+' ∧ c ≠ '-' := by
  rcases hcor with h | h
  · refine ⟨digit_toNat_low h, digit_ne_plus h, digit_ne_minus h⟩
  · rw [h]
    refine ⟨by decide, by decide, by decide⟩

theorem parseF64_digits_dot {ds fs : List Char}
    (hd : ∀ c ∈ ds, isDigitCh c = true) (hf : ∀ c ∈ fs, isDigitCh c = true)
    (hfne : fs ≠ []) :
    parseF64 (ds ++ '.' :: fs) =
      some (F64.finite ⟨(natOfDigits (ds ++ fs) : ℤ), -(fs.length : ℤ)⟩) := by
  have hhead : ∃ c rest, ds ++ '.' :: fs = c :: rest ∧ (isDigitCh c = true ∨ c = '.') := by
    cases ds with
    | nil => exact ⟨'.', fs, rfl, Or.inr rfl⟩
    | cons c t => exact ⟨c, t ++ '.' :: fs, rfl, Or.inl (hd c (List.mem_cons_self c t))⟩
  obtain ⟨c, rest, heq, hcor⟩ := hhead
  obtain ⟨hlow, hplus, hminus⟩ := digitCh_or_dot_props hcor
  unfold parseF64
  rw [heq, parseSign_no_sign rest hplus hminus]
  dsimp only
  rw [parseSpecial_none_of_low (List.mem_cons_self c rest) hlow]
  rw [← heq, parseMantissa_digits_dot hd hf hfne]
  dsimp only [parseExpSuffix]
  norm_num

theorem salaryMatchAt_shape (c : Char) (rest cap unit r3 : List Char)
    (h : salaryMatchAt (c :: rest) = some (cap, unit, r3)) :
    ∃ run d1 d2, cap = run ++ ['.', d1, d2] ∧ run ≠ [] ∧
      (∀ x ∈ run, isRunCh x = true) ∧ isDigitCh d1 = true ∧ isDigitCh d2 = true := by
  rw [salaryMatchAt_cons] at h
  by_cases hd : isDigitCh c
  · rw [if_pos hd] at h; simp at h
  · rw [if_neg hd] at h
    by_cases hrun : (rest.takeWhile isRunCh).isEmpty
    · rw [if_pos hrun] at h; simp at h
    · rw [if_neg hrun] at h
      rcases hsp : rest.dropWhile isRunCh with _ | ⟨p, _ | ⟨d1, _ | ⟨d2, _ | ⟨sl, r2⟩⟩⟩⟩ <;>
        rw [hsp] at h
      · simp at h
      · simp at h
      · simp at h
      · simp at h
      · dsimp only at h
        by_cases hg : p = '.' && isDigitCh d1 && isDigitCh d2 && sl = '/'
        · rw [if_pos hg] at h
          simp only [Option.some.injEq, Prod.mk.injEq] at h
          simp only [Bool.and_eq_true, decide_eq_true_eq] at hg
          refine ⟨rest.takeWhile isRunCh, d1, d2, ?_, ?_, ?_, hg.1.1.2, hg.1.2⟩
          · rw [← h.1, hg.1.1.1]
          · simpa using hrun
          · intro x hx
            exact List.mem_takeWhile_imp hx
        · rw [if_neg hg] at h; simp at h

theorem digit_bne_comma {x : Char} (h : isDigitCh x = true) : (x != ',') = true := by
  simp only [bne_iff_ne, ne_eq]
  intro habs
  rw [habs] at h
  simp [isDigitCh] at h

theorem parseSalaryAux_mem_finite :
    ∀ (fuel : ℕ) (l : List Char) (e : F64 × String), e ∈ parseSalaryAux fuel l →
      ∃ m : ℕ, e.1 = F64.finite ⟨(m : ℤ), -2⟩ := by
  intro fuel
  induction fuel with
  | zero => intro l e he; simp [parseSalaryAux] at he
  | succ f ih =>
    intro l e he
    match l with
    | [] => simp [parseSalaryAux] at he
    | c :: rest =>
      rw [parseSalaryAux] at he
      cases hm : salaryMatchAt (c :: rest) with
      | none =>
        rw [hm] at he
        exact ih rest e he
      | some trip =>
        obtain ⟨cap, unit, r3⟩ := trip
        rw [hm] at he
        obtain ⟨run, d1, d2, hcap, hrne, hrall, hd1, hd2⟩ :=
          salaryMatchAt_shape c rest cap unit r3 hm
        have hclean : cap.filter (fun x => x != ',') =
            run.filter (fun x => x != ',') ++ '.' :: [d1, d2] := by
          rw [hcap, List.filter_append]
          congr 1
          simp [digit_bne_comma hd1, digit_bne_comma hd2]
        have hfds : ∀ x ∈ run.filter (fun x => x != ','), isDigitCh x = true := by
          intro x hx
          obtain ⟨hx1, hx2⟩ := List.mem_filter.mp hx
          have := hrall x hx1
          unfold isRunCh at this
          rcases Bool.or_eq_true _ _ |>.mp this with h | h
          · exact h
          · simp only [bne_iff_ne, ne_eq, decide_eq_true_eq] at hx2 h
            exact absurd h hx2
        have hparse := @parseF64_digits_dot (run.filter (fun x => x != ',')) [d1, d2] hfds
          (by intro x hx; simp at hx; rcases hx with rfl | rfl; exact hd1; exact hd2)
          (by simp)
        dsimp only at he
        rw [hclean, hparse] at he
        dsimp only at he
        simp only [List.mem_cons] at he
        rcases he with he | he
        · exact ⟨natOfDigits (run.filter (fun x => x != ',') ++ [d1, d2]), by rw [he]; norm_num⟩
        · exact ih r3 e he

theorem payFromParsed_some (d : D10) (u : String) (hm : 0 ≤ d.m) :
    ∃ v, payFromParsed (F64.finite d, u) = some v := by
  unfold payFromParsed get_pay_i64
  rw [mk_data]
  have hfmt : formatF64 (F64.finite d) =
      (if 0 ≤ d.e10 then natToDigits (d.m.natAbs * 10 ^ d.e10.toNat + 1) (d.m.natAbs * 10 ^ d.e10.toNat)
       else
         let (b, k) := stripZeros d.m.natAbs (-d.e10).toNat
         if k = 0 then natToDigits (b + 1) b
         else natToDigits (b / 10 ^ k + 1) (b / 10 ^ k) ++ '.' :: natDigitsFix k (b % 10 ^ k)) := by
    unfold formatF64
    dsimp only
    rw [if_neg (show ¬ (d.m < 0) by omega)]
  rw [hfmt]
  by_cases he : 0 ≤ d.e10
  · rw [if_pos he]
    rw [parseF64_digits (natToDigits_ne_nil _ _) (natToDigits_digits _ _)]
    exact ⟨_, rfl⟩
  · rw [if_neg he]
    dsimp only
    match hsz : stripZeros d.m.natAbs (-d.e10).toNat with
    | (b, k) =>
      by_cases hk : k = 0
      · rw [if_pos hk]
        rw [parseF64_digits (natToDigits_ne_nil _ _) (natToDigits_digits _ _)]
        exact ⟨_, rfl⟩
      · rw [if_neg hk]
        rw [parseF64_digits_dot (natToDigits_digits _ _) (natDigitsFix_digits _ _)
          (by intro habs; have := natDigitsFix_length k (b % 10 ^ k); rw [habs] at this; simp at this; exact hk this.symm)]
        exact ⟨_, rfl⟩

theorem parse_salary_mem_finite (s : String) (e : F64 × String) (he : e ∈ parse_salary s) :
    ∃ m : ℕ, e.1 = F64.finite ⟨(m : ℤ), -2⟩ :=
  parseSalaryAux_mem_finite _ _ e he

/-- C1 counterexample: for the one-match text "$85,000.00/yr" the scraped
conversion populates the MIN slot (8_500_000 cents) and leaves the max slot
absent — the claim says a single match populates only the max slot. -/
theorem C1_counterexample :
    parse_salary "$85,000.00/yr" = [(F64.finite ⟨8500000, -2⟩, "yr")] ∧
    scraper_pay "$85,000.00/yr" = some (some 8500000, none) := by
  constructor
  · decide
  · decide

/-- C1 (amended): in `fetch_job_details` the FIRST salary match populates the
min (lower-bound) cents slot and the SECOND populates the max (upper-bound)
slot; with exactly one match only the min slot is populated; with zero
matches both slots are absent.  The conversion never panics on scanner
output. -/
theorem C1_scraper_slots (text : String) :
    (parse_salary text = [] → scraper_pay text = some (none, none)) ∧
    (∀ e, parse_salary text = [e] → ∃ v, payFromParsed e = some v ∧
        scraper_pay text = some (some v, none)) ∧
    (∀ e0 e1, parse_salary text = [e0, e1] → ∃ v0 v1,
        payFromParsed e0 = some v0 ∧ payFromParsed e1 = some v1 ∧
        scraper_pay text = some (some v0, some v1)) := by
  refine ⟨?_, ?_, ?_⟩
  · intro hp
    unfold scraper_pay
    rw [hp]
    rfl
  · intro e hp
    obtain ⟨m, hm⟩ := parse_salary_mem_finite text e (by rw [hp]; exact List.mem_cons_self _ _)
    obtain ⟨f1, u⟩ := e
    simp only at hm
    subst hm
    obtain ⟨v, hv⟩ := payFromParsed_some ⟨(m : ℤ), -2⟩ u (by positivity)
    refine ⟨v, hv, ?_⟩
    unfold scraper_pay
    rw [hp]
    dsimp only [List.get?]
    rw [hv]
    rfl
  · intro e0 e1 hp
    obtain ⟨m0, hm0⟩ := parse_salary_mem_finite text e0 (by rw [hp]; exact List.mem_cons_self _ _)
    obtain ⟨m1, hm1⟩ := parse_salary_mem_finite text e1
      (by rw [hp]; exact List.mem_cons_of_mem _ (List.mem_cons_self _ _))
    obtain ⟨f0, u0⟩ := e0
    obtain ⟨f1, u1⟩ := e1
    simp only at hm0 hm1
    subst hm0
    subst hm1
    obtain ⟨v0, hv0⟩ := payFromParsed_some ⟨(m0 : ℤ), -2⟩ u0 (by positivity)
    obtain ⟨v1, hv1⟩ := payFromParsed_some ⟨(m1 : ℤ), -2⟩ u1 (by positivity)
    refine ⟨v0, v1, hv0, hv1, ?_⟩
    unfold scraper_pay
    rw [hp]
    dsimp only [List.get?]
    rw [hv0, hv1]
    rfl

/-- Closed witness for C1 at concrete inputs, discharging the hypotheses. -/
theorem C1_scraper_slots_witness :
    scraper_pay "no numbers at all" = some (none, none) ∧
    (∃ v, payFromParsed (F64.finite ⟨8500000, -2⟩, "yr") = some v ∧
      scraper_pay "$85,000.00/yr" = some (some v, none)) ∧
    (∃ v0 v1, payFromParsed (F64.finite ⟨8500000, -2⟩, "yr") = some v0 ∧
      payFromParsed (F64.finite ⟨6000000, -2⟩, "yr") = some v1 ∧
      scraper_pay "$85,000.00/yr - $60,000.00/yr" = some (some v0, some v1)) := by
  refine ⟨(C1_scraper_slots "no numbers at all").1 (by decide), ?_, ?_⟩
  · exact (C1_scraper_slots "$85,000.00/yr").2.1 _ (by decide)
  · exact (C1_scraper_slots "$85,000.00/yr - $60,000.00/yr").2.2 _ _ (by decide)

theorem toRat_8500000 : D10.toRat ⟨8500000, -2⟩ = 85000 := by
  rw [D10.toRat_neg_e (by norm_num)]
  rw [show Int.toNat (-(-2 : ℤ)) = 2 by rfl]
  norm_num

theorem toRat_6000000 : D10.toRat ⟨6000000, -2⟩ = 60000 := by
  rw [D10.toRat_neg_e (by norm_num)]
  rw [show Int.toNat (-(-2 : ℤ)) = 2 by rfl]
  norm_num

/-- C2 counterexample: the parse result is as claimed, but the conversion in
the scraper assigns the FIRST match (85000) to `min_pay` and the SECOND
(60000) to `max_pay`, so the claimed `max_cents = 8_500_000`,
`min_cents = 6_000_000` is exactly reversed. -/
theorem C2_counterexample :
    parse_salary "$85,000.00/yr - $60,000.00/yr" =
      [(F64.finite ⟨8500000, -2⟩, "yr"), (F64.finite ⟨6000000, -2⟩, "yr")] ∧
    scraper_pay "$85,000.00/yr - $60,000.00/yr" = some (some 8500000, some 6000000) ∧
    ¬ scraper_pay "$85,000.00/yr - $60,000.00/yr" = some (some 6000000, some 8500000) := by
  refine ⟨by decide, by decide, by decide⟩

/-- C2 (amended): for the text "$85,000.00/yr - $60,000.00/yr",
`parse_salary` returns exactly the two matches 85000.0/"yr" and 60000.0/"yr"
in order of appearance (thousands separators stripped), and the scraper's
conversion assigns first=min/second=max: `min_pay_cents = 8_500_000` and
`max_pay_cents = 6_000_000`. -/
theorem C2_salary_roundtrip :
    parse_salary "$85,000.00/yr - $60,000.00/yr" =
      [(F64.finite ⟨8500000, -2⟩, "yr"), (F64.finite ⟨6000000, -2⟩, "yr")] ∧
    D10.toRat ⟨8500000, -2⟩ = 85000 ∧ D10.toRat ⟨6000000, -2⟩ = 60000 ∧
    scraper_pay "$85,000.00/yr - $60,000.00/yr" = some (some 8500000, some 6000000) := by
  exact ⟨by decide, toRat_8500000, toRat_6000000, by decide⟩

/- ===================== Section H: the years-of-experience extractor ===================== -/

/-- The overflow check of `i64::from_str`: succeed exactly when the signed
value fits in `i64`. -/
def signedInRange (sv : ℤ) : Option ℤ :=
  if I64MIN ≤ sv ∧ sv ≤ I64MAX then some sv else none

/-- Model of Rust `str::parse::<i64>()`: optional sign, then a nonempty
all-digit string whose signed value fits in `i64`; anything else (including
overflow) is a parse error. -/
def parse_i64 (l : List Char) : Option ℤ :=
  match l with
  | [] => none
  | _ =>
    let pr := parseSign l
    if pr.2.isEmpty then none
    else if pr.2.all isDigitCh then
      signedInRange (if pr.1 then -(natOfDigits pr.2 : ℤ) else (natOfDigits pr.2 : ℤ))
    else none

example : parse_i64 "34".data = some 34 := by decide
example : parse_i64 "-7".data = some (-7) := by decide
example : parse_i64 "".data = none := by decide
example : parse_i64 "3-5 years".data = none := by decide
example : parse_i64 "99999999999999999999".data = none := by decide
example : parse_i64 "9223372036854775807".data = some 9223372036854775807 := by decide

/-- Match the tail `[\+]? year[s]?` of the YOE regex (src/utils.rs:60) at the
current position; returns (consumed text, rest).  A present `+` must be
consumed: the alternative leaves `+` where the literal space is required. -/
def yoeTail (l : List Char) : Option (List Char × List Char) :=
  let (plus, r1) :=
    match l with
    | c :: r => if c = '+' then (['+'], r) else (([] : List Char), l)
    | [] => ([], [])
  match r1 with
  | c1 :: c2 :: c3 :: c4 :: c5 :: r2 =>
    if c1 = ' ' && c2 = 'y' && c3 = 'e' && c4 = 'a' && c5 = 'r' then
      match r2 with
      | s :: r3 =>
        if s = 's' then some (plus ++ [c1, c2, c3, c4, c5, s], r3)
        else some (plus ++ [c1, c2, c3, c4, c5], r2)
      | [] => some (plus ++ [c1, c2, c3, c4, c5], [])
    else none
  | _ => none

/-- One anchored leftmost-first match attempt of the YOE regex
`([\d]*)[\D]?([\d]+)[\+]? year[s]?` (src/utils.rs:60), returning
(group 0, group 1, group 2, rest after the match).  Preference order of the
`regex` crate: group 1 takes the whole leading digit run and `[\D]?` one more
character when the rest then completes; otherwise group 1 gives up exactly its
last digit to group 2 (`[\D]?` cannot hold a digit, and every shorter group 1
leaves the same tail, so the longest valid group 1 is the run minus one). -/
def yoeMatchAt (l : List Char) : Option (List Char × List Char × List Char × List Char) :=
  let D := l.takeWhile isDigitCh
  let after := l.dropWhile isDigitCh
  let try3 : Option (List Char × List Char × List Char × List Char) :=
    if D.isEmpty then none
    else
      match yoeTail after with
      | some (tl, rest) =>
        some (D ++ tl, D.dropLast, D.drop (D.length - 1), rest)
      | none => none
  match after with
  | c :: r2 =>
    let D2 := r2.takeWhile isDigitCh
    let after2 := r2.dropWhile isDigitCh
    if D2.isEmpty then try3
    else
      match yoeTail after2 with
      | some (tl, rest) => some (D ++ c :: (D2 ++ tl), D, D2, rest)
      | none => try3
  | [] => try3

/-- Scanner loop of `find_yoe_naive`: at each position try a match; on a
match, parse each of the three capture groups as `i64` and keep the
successes, resuming after the match end; otherwise advance one character.
Every match consumes at least the literal " year", so the input length is
enough fuel. -/
def yoeCandList : Nat → List Char → List ℤ
  | 0, _ => []
  | _, [] => []
  | fuel + 1, c :: rest =>
    match yoeMatchAt (c :: rest) with
    | some (g0, g1, g2, restA) =>
      [g0, g1, g2].filterMap parse_i64 ++ yoeCandList fuel restA
    | none => yoeCandList fuel rest

/-- Embedding of `find_yoe_naive` (src/utils.rs:59-83): fold all parsed
candidates through the running min/max with the `i64::MAX`/`i64::MIN`
sentinels; report min when the sentinel moved, and max when its sentinel
moved and it differs from the (final) min accumulator. -/
def find_yoe_naive (s : String) : Option ℤ × Option ℤ :=
  let cands := yoeCandList s.data.length s.data
  let acc := cands.foldl
    (fun (acc : ℤ × ℤ) n => (if n < acc.1 then n else acc.1, if n > acc.2 then n else acc.2))
    (I64MAX, I64MIN)
  ((if acc.1 < I64MAX then some acc.1 else none),
   (if acc.2 > I64MIN ∧ acc.2 ≠ acc.1 then some acc.2 else none))

example : find_yoe_naive "Requires 3-5 years of experience, prefer 7+ years in the specific stack" =
    (some 3, some 7) := by decide
example : find_yoe_naive "5 years" = (some 5, none) := by decide
example : find_yoe_naive "34 years" = (some 3, some 4) := by decide
example : find_yoe_naive "" = (none, none) := by decide
example : find_yoe_naive "no experience mentioned" = (none, none) := by decide
example : find_yoe_naive "99999999999999999999 years" = (some 9, none) := by decide

/-- Claim-side capture extraction for C3: the digit-only captures of every
match, each read as an unbounded integer (the spec sentence has no i64
overflow proviso). -/
def yoeDigitCaptureVals : Nat → List Char → List ℤ
  | 0, _ => []
  | _, [] => []
  | fuel + 1, c :: rest =>
    match yoeMatchAt (c :: rest) with
    | some (g0, g1, g2, restA) =>
      ([g0, g1, g2].filter (fun g => !g.isEmpty && g.all isDigitCh)).map
        (fun g => (natOfDigits g : ℤ)) ++ yoeDigitCaptureVals fuel restA
    | none => yoeDigitCaptureVals fuel rest

/-- Claim-side capture values of a whole string. -/
def digit_capture_vals (s : String) : List ℤ := yoeDigitCaptureVals s.data.length s.data

/-- The i64-parsed candidate list of a whole string (what the code folds). -/
def yoe_candidates (s : String) : List ℤ := yoeCandList s.data.length s.data

example : digit_capture_vals "99999999999999999999 years" = [9999999999999999999, 9] := by decide
example : yoe_candidates "99999999999999999999 years" = [9] := by decide

theorem foldl_pair_minmax (cs : List ℤ) (a b : ℤ) :
    cs.foldl (fun (acc : ℤ × ℤ) n =>
        (if n < acc.1 then n else acc.1, if n > acc.2 then n else acc.2)) (a, b) =
      (cs.foldl (fun x n => if n < x then n else x) a,
       cs.foldl (fun x n => if n > x then n else x) b) := by
  induction cs generalizing a b with
  | nil => rfl
  | cons c t ih =>
    simp only [List.foldl_cons]
    exact ih _ _

theorem foldl_min_facts (cs : List ℤ) : ∀ a : ℤ,
    (cs.foldl (fun x n => if n < x then n else x) a = a ∨
     cs.foldl (fun x n => if n < x then n else x) a ∈ cs) ∧
    cs.foldl (fun x n => if n < x then n else x) a ≤ a ∧
    ∀ n ∈ cs, cs.foldl (fun x n => if n < x then n else x) a ≤ n := by
  induction cs with
  | nil => intro a; exact ⟨Or.inl rfl, le_refl a, by intro n hn; simp at hn⟩
  | cons c t ih =>
    intro a
    simp only [List.foldl_cons]
    obtain ⟨hor, hle, hall⟩ := ih (if c < a then c else a)
    refine ⟨?_, ?_, ?_⟩
    · rcases hor with h | h
      · rw [h]
        by_cases hc : c < a
        · rw [if_pos hc]; exact Or.inr (List.mem_cons_self c t)
        · rw [if_neg hc]; exact Or.inl rfl
      · exact Or.inr (List.mem_cons_of_mem c h)
    · refine le_trans hle ?_
      by_cases hc : c < a
      · rw [if_pos hc]; omega
      · rw [if_neg hc]
    · intro n hn
      rcases List.mem_cons.mp hn with rfl | hn
      · refine le_trans hle ?_
        by_cases hc : n < a
        · rw [if_pos hc]
        · rw [if_neg hc]; omega
      · exact hall n hn

theorem foldl_max_facts (cs : List ℤ) : ∀ b : ℤ,
    (cs.foldl (fun x n => if n > x then n else x) b = b ∨
     cs.foldl (fun x n => if n > x then n else x) b ∈ cs) ∧
    b ≤ cs.foldl (fun x n => if n > x then n else x) b ∧
    ∀ n ∈ cs, n ≤ cs.foldl (fun x n => if n > x then n else x) b := by
  induction cs with
  | nil => intro b; exact ⟨Or.inl rfl, le_refl b, by intro n hn; simp at hn⟩
  | cons c t ih =>
    intro b
    simp only [List.foldl_cons]
    obtain ⟨hor, hle, hall⟩ := ih (if c > b then c else b)
    refine ⟨?_, ?_, ?_⟩
    · rcases hor with h | h
      · rw [h]
        by_cases hc : c > b
        · rw [if_pos hc]; exact Or.inr (List.mem_cons_self c t)
        · rw [if_neg hc]; exact Or.inl rfl
      · exact Or.inr (List.mem_cons_of_mem c h)
    · refine le_trans ?_ hle
      by_cases hc : c > b
      · rw [if_pos hc]; omega
      · rw [if_neg hc]
    · intro n hn
      rcases List.mem_cons.mp hn with rfl | hn
      · refine le_trans ?_ hle
        by_cases hc : n > b
        · rw [if_pos hc]
        · rw [if_neg hc]; omega
      · exact hall n hn

theorem signedInRange_bounds {sv v : ℤ} (h : signedInRange sv = some v) :
    I64MIN ≤ v ∧ v ≤ I64MAX := by
  unfold signedInRange at h
  split at h
  · simp only [Option.some.injEq] at h
    rename_i hb
    rw [h] at hb
    exact hb
  · simp at h

theorem parse_i64_bounds {l : List Char} {v : ℤ} (h : parse_i64 l = some v) :
    I64MIN ≤ v ∧ v ≤ I64MAX := by
  unfold parse_i64 at h
  split at h
  · simp at h
  · dsimp only at h
    split at h
    · simp at h
    · split at h
      · exact signedInRange_bounds h
      · simp at h

theorem yoeCandList_bounds :
    ∀ (fuel : ℕ) (l : List Char) (n : ℤ), n ∈ yoeCandList fuel l →
      I64MIN ≤ n ∧ n ≤ I64MAX := by
  intro fuel
  induction fuel with
  | zero => intro l n hn; simp [yoeCandList] at hn
  | succ f ih =>
    intro l n hn
    match l with
    | [] => simp [yoeCandList] at hn
    | c :: rest =>
      rw [yoeCandList] at hn
      cases hm : yoeMatchAt (c :: rest) with
      | none =>
        rw [hm] at hn
        exact ih rest n hn
      | some quad =>
        obtain ⟨g0, g1, g2, restA⟩ := quad
        rw [hm] at hn
        dsimp only at hn
        rw [List.mem_append] at hn
        rcases hn with hn | hn
        · obtain ⟨g, _, hg⟩ := List.mem_filterMap.mp hn
          exact parse_i64_bounds hg
        · exact ih restA n hn

/-- C3 counterexample: in "99999999999999999999 years" the digit-only
captures are the 19-nines group-1 text (value 9999999999999999999, which
overflows `i64` and is silently skipped) and "9"; the claim then demands
`min = 9` and `max = 9999999999999999999`, but the code returns
`(some 9, none)`. -/
theorem C3_counterexample :
    digit_capture_vals "99999999999999999999 years" = [9999999999999999999, 9] ∧
    find_yoe_naive "99999999999999999999 years" = (some 9, none) ∧
    (9999999999999999999 : ℤ) ≠ 9 ∧
    (find_yoe_naive "99999999999999999999 years").2 ≠ some 9999999999999999999 := by
  refine ⟨by decide, by decide, by decide, by decide⟩

/-- C3 (amended): `find_yoe_naive` aggregates every capture that parses as an
`i64` (digit-only and within the `i64` range; overflowing captures are
skipped) into a global envelope.  Zero candidates give `(none, none)`.
Provided all candidates are below the `i64::MAX` sentinel: the minimum slot
reports the smallest candidate, and the maximum slot reports the largest
candidate exactly when it differs from the smallest (all-equal candidates
populate only the minimum).  Whenever both slots are populated, min ≤ max;
an absent boundary is `none`, never zero.  The example text
"Requires 3-5 years of experience, prefer 7+ years in the specific stack"
yields `(some 3, some 7)`. -/
theorem C3_yoe_envelope (text : String) :
    (yoe_candidates text = [] → find_yoe_naive text = (none, none)) ∧
    ((∀ n ∈ yoe_candidates text, n < I64MAX) → yoe_candidates text ≠ [] →
      ∃ mn mx, mn ∈ yoe_candidates text ∧ (∀ n ∈ yoe_candidates text, mn ≤ n) ∧
        mx ∈ yoe_candidates text ∧ (∀ n ∈ yoe_candidates text, n ≤ mx) ∧
        (find_yoe_naive text).1 = some mn ∧
        (find_yoe_naive text).2 = (if mx = mn then none else some mx)) ∧
    (∀ mn mx, (find_yoe_naive text).1 = some mn → (find_yoe_naive text).2 = some mx →
      mn ≤ mx) ∧
    find_yoe_naive "Requires 3-5 years of experience, prefer 7+ years in the specific stack" =
      (some 3, some 7) := by
  have hfold := foldl_pair_minmax (yoe_candidates text) I64MAX I64MIN
  have hfy : find_yoe_naive text =
      (let acc := ((yoe_candidates text).foldl (fun x n => if n < x then n else x) I64MAX,
                   (yoe_candidates text).foldl (fun x n => if n > x then n else x) I64MIN)
       ((if acc.1 < I64MAX then some acc.1 else none),
        (if acc.2 > I64MIN ∧ acc.2 ≠ acc.1 then some acc.2 else none))) := by
    unfold find_yoe_naive
    dsimp only
    rw [show yoeCandList text.data.length text.data = yoe_candidates text from rfl]
    rw [hfold]
  obtain ⟨horMin, hleMin, hallMin⟩ := foldl_min_facts (yoe_candidates text) I64MAX
  obtain ⟨horMax, hleMax, hallMax⟩ := foldl_max_facts (yoe_candidates text) I64MIN
  set FMin := (yoe_candidates text).foldl (fun x n => if n < x then n else x) I64MAX with hFMin
  set FMax := (yoe_candidates text).foldl (fun x n => if n > x then n else x) I64MIN with hFMax
  have hbounds : ∀ n ∈ yoe_candidates text, I64MIN ≤ n ∧ n ≤ I64MAX :=
    fun n hn => yoeCandList_bounds _ _ n hn
  refine ⟨?_, ?_, ?_, by decide⟩
  · intro hnil
    rw [hfy]
    dsimp only
    rw [hnil] at hFMin hFMax
    simp only [List.foldl_nil] at hFMin hFMax
    rw [hFMin, hFMax]
    norm_num [I64MAX, I64MIN]
  · intro hlt hne
    have hFMin_mem : FMin ∈ yoe_candidates text := by
      rcases horMin with h | h
      · exfalso
        obtain ⟨n0, hn0⟩ := List.exists_mem_of_ne_nil _ hne
        have h1 := hallMin n0 hn0
        have h2 := hlt n0 hn0
        rw [h] at h1
        omega
      · exact h
    have hFMax_mem : FMax ∈ yoe_candidates text := by
      rcases horMax with h | h
      · obtain ⟨n0, hn0⟩ := List.exists_mem_of_ne_nil _ hne
        have h1 := hallMax n0 hn0
        have h2 := (hbounds n0 hn0).1
        have h5 : n0 = FMax := by omega
        rw [← h5]
        exact hn0
      · exact h
    refine ⟨FMin, FMax, hFMin_mem, hallMin, hFMax_mem, hallMax, ?_, ?_⟩
    · rw [hfy]
      dsimp only
      rw [if_pos (hlt FMin hFMin_mem)]
    · rw [hfy]
      dsimp only
      by_cases heq : FMax = FMin
      · rw [if_pos heq]
        rw [if_neg]
        intro ⟨h1, h2⟩
        exact h2 heq
      · rw [if_neg heq]
        rw [if_pos]
        constructor
        · have h1 := hallMin FMax hFMax_mem
          have h2 := hallMax FMin hFMin_mem
          have h3 := (hbounds FMin hFMin_mem).1
          omega
        · exact heq
  · intro mn mx h1 h2
    rw [hfy] at h1 h2
    dsimp only at h1 h2
    by_cases hc1 : FMin < I64MAX
    · rw [if_pos hc1] at h1
      by_cases hc2 : FMax > I64MIN ∧ FMax ≠ FMin
      · rw [if_pos hc2] at h2
        have hmn : mn = FMin := by injection h1 with h; exact h.symm
        have hmx : mx = FMax := by injection h2 with h; exact h.symm
        subst hmn
        subst hmx
        rcases horMin with h | h
        · omega
        · have := hallMax FMin h
          omega
      · rw [if_neg hc2] at h2
        simp at h2
    · rw [if_neg hc1] at h1
      simp at h1

/-- Closed witness for C3 at concrete inputs, discharging the hypotheses. -/
theorem C3_yoe_envelope_witness :
    (∃ mn mx, mn ∈ yoe_candidates "3-5 years" ∧ (∀ n ∈ yoe_candidates "3-5 years", mn ≤ n) ∧
      mx ∈ yoe_candidates "3-5 years" ∧ (∀ n ∈ yoe_candidates "3-5 years", n ≤ mx) ∧
      (find_yoe_naive "3-5 years").1 = some mn ∧
      (find_yoe_naive "3-5 years").2 = (if mx = mn then none else some mx)) ∧
    find_yoe_naive "nothing here" = (none, none) ∧
    (3 : ℤ) ≤ 5 := by
  refine ⟨(C3_yoe_envelope "3-5 years").2.1 (by decide) (by decide),
          (C3_yoe_envelope "nothing here").1 (by decide),
          (C3_yoe_envelope "3-5 years").2.2.1 3 5 (by decide) (by decide)⟩

/- ===================== Section I: claim C5 ===================== -/

theorem takeWhile_nil_of_none {p : Char → Bool} {l : List Char}
    (h : ∀ c ∈ l, p c = false) : l.takeWhile p = [] := by
  cases l with
  | nil => rfl
  | cons c rest =>
    rw [List.takeWhile_cons, h c (List.mem_cons_self c rest)]
    rfl

theorem dropWhile_self_of_none {p : Char → Bool} {l : List Char}
    (h : ∀ c ∈ l, p c = false) : l.dropWhile p = l :=
  dropWhile_eq_self_of_head (fun c hc => h c (head?_mem hc))

theorem salaryMatchAt_none_of_no_digit {l : List Char}
    (h : ∀ c ∈ l, isDigitCh c = false) : salaryMatchAt l = none := by
  cases l with
  | nil => rfl
  | cons c rest =>
    rw [salaryMatchAt_cons]
    rw [if_neg (by rw [h c (List.mem_cons_self c rest)]; simp)]
    by_cases hrun : (rest.takeWhile isRunCh).isEmpty
    · rw [if_pos hrun]
    · rw [if_neg hrun]
      rcases hsp : rest.dropWhile isRunCh with _ | ⟨p, _ | ⟨d1, _ | ⟨d2, _ | ⟨sl, r2⟩⟩⟩⟩
      · rfl
      · rfl
      · rfl
      · rfl
      · dsimp only
        rw [if_neg]
        intro hg
        simp only [Bool.and_eq_true, decide_eq_true_eq] at hg
        have hd1mem : d1 ∈ rest := by
          have : d1 ∈ rest.dropWhile isRunCh := by
            rw [hsp]; exact List.mem_cons_of_mem _ (List.mem_cons_self _ _)
          exact mem_dropWhile this
        have := h d1 (List.mem_cons_of_mem c hd1mem)
        rw [hg.1.1.2] at this
        simp at this

theorem parseSalaryAux_nil_of_no_digit :
    ∀ (fuel : ℕ) (l : List Char), (∀ c ∈ l, isDigitCh c = false) →
      parseSalaryAux fuel l = [] := by
  intro fuel
  induction fuel with
  | zero => intro l h; cases l <;> rfl
  | succ f ih =>
    intro l h
    match l with
    | [] => rfl
    | c :: rest =>
      rw [parseSalaryAux, salaryMatchAt_none_of_no_digit h]
      exact ih rest (fun x hx => h x (List.mem_cons_of_mem c hx))

theorem yoeMatchAt_none_of_no_digit {l : List Char}
    (h : ∀ c ∈ l, isDigitCh c = false) : yoeMatchAt l = none := by
  unfold yoeMatchAt
  rw [takeWhile_nil_of_none h, dropWhile_self_of_none h]
  cases l with
  | nil => rfl
  | cons c rest =>
    dsimp only
    rw [takeWhile_nil_of_none (fun x hx => h x (List.mem_cons_of_mem c hx))]
    rfl

theorem yoeCandList_nil_of_no_digit :
    ∀ (fuel : ℕ) (l : List Char), (∀ c ∈ l, isDigitCh c = false) →
      yoeCandList fuel l = [] := by
  intro fuel
  induction fuel with
  | zero => intro l h; cases l <;> rfl
  | succ f ih =>
    intro l h
    match l with
    | [] => rfl
    | c :: rest =>
      rw [yoeCandList, yoeMatchAt_none_of_no_digit h]
      exact ih rest (fun x hx => h x (List.mem_cons_of_mem c hx))

theorem find_yoe_of_nil_cands {s : String}
    (h : yoeCandList s.data.length s.data = []) : find_yoe_naive s = (none, none) := by
  unfold find_yoe_naive
  rw [h]
  simp only [List.foldl_nil]
  norm_num [I64MAX, I64MIN]

theorem parseSign_snd_mem {l : List Char} {c : Char} (h : c ∈ (parseSign l).2) : c ∈ l := by
  cases l with
  | nil => simp [parseSign] at h
  | cons a r =>
    unfold parseSign at h
    dsimp only at h
    by_cases ha : a = '+'
    · rw [if_pos ha] at h
      exact List.mem_cons_of_mem a h
    · rw [if_neg ha] at h
      by_cases hb : a = '-'
      · rw [if_pos hb] at h
        exact List.mem_cons_of_mem a h
      · rw [if_neg hb] at h
        exact h

theorem parseSpecial_none_of_core_false {neg : Bool} {l : List Char}
    (h : specialCore l = false) : parseSpecial neg l = none := by
  unfold specialCore at h
  simp only [Bool.or_eq_false_iff, decide_eq_false_iff_not] at h
  unfold parseSpecial
  rw [if_neg, if_neg]
  · exact fun habs => h.2 (by simpa using habs)
  · intro habs
    rcases Bool.or_eq_true _ _ |>.mp habs with h1 | h1
    · exact h.1.1 (by simpa using h1)
    · exact h.1.2 (by simpa using h1)

theorem parseMantissa_none_of_no_digit {l : List Char}
    (h : ∀ c ∈ l, isDigitCh c = false) : parseMantissa l = none := by
  unfold parseMantissa
  rw [takeWhile_nil_of_none h, dropWhile_self_of_none h]
  dsimp only
  split
  next rr =>
    rw [takeWhile_nil_of_none (fun x hx => h x (List.mem_cons_of_mem _ hx))]
    rfl
  next => rfl

theorem parseF64_none_of_no_digit {l : List Char}
    (h : ∀ c ∈ l, isDigitCh c = false)
    (hsp : specialCore (parseSign l).2 = false) : parseF64 l = none := by
  unfold parseF64
  cases hps : parseSign l with
  | mk neg r =>
    dsimp only
    have hr : ∀ c ∈ r, isDigitCh c = false := by
      intro c hc
      refine h c (parseSign_snd_mem ?_)
      rw [hps]
      exact hc
    have hsp2 : specialCore r = false := by
      rw [hps] at hsp
      exact hsp
    rw [parseSpecial_none_of_core_false hsp2, parseMantissa_none_of_no_digit hr]

/-- C5 counterexample: "inf" contains no digit characters, yet `parse_money`
does not fail: Rust accepts the special float word `inf`, and
`(inf * 100.0).round() as i64` saturates to `i64::MAX`. -/
theorem C5_counterexample :
    (∀ c ∈ "inf".data, isDigitCh c = false) ∧
    get_pay_i64 "inf" = Except.ok 9223372036854775807 := by
  refine ⟨by decide, by decide⟩

/-- C5 (amended): for every input string with no digit characters,
`parse_money` returns an error unless the string is (after an optional sign)
one of the special float words `inf`/`infinity`/`nan` (case-insensitive);
`parse_salary` returns the empty list and `extract_experience_range` returns
`(none, none)`, in both cases without any error. -/
theorem C5_no_digit_behaviour (s : String) (h : ∀ c ∈ s.data, isDigitCh c = false) :
    (specialCore (parseSign s.data).2 = false →
      get_pay_i64 s = Except.error "Invalid input string") ∧
    parse_salary s = [] ∧
    find_yoe_naive s = (none, none) := by
  refine ⟨?_, ?_, ?_⟩
  · intro hsp
    unfold get_pay_i64
    rw [parseF64_none_of_no_digit h hsp]
  · exact parseSalaryAux_nil_of_no_digit _ _ h
  · exact find_yoe_of_nil_cands (yoeCandList_nil_of_no_digit _ _ h)

/-- Closed witness for C5 at a concrete input, discharging the hypotheses. -/
theorem C5_no_digit_witness :
    get_pay_i64 "hello, world" = Except.error "Invalid input string" ∧
    parse_salary "hello, world" = [] ∧
    find_yoe_naive "hello, world" = (none, none) := by
  have h := C5_no_digit_behaviour "hello, world" (by decide)
  exact ⟨h.1 (by decide), h.2.1, h.2.2⟩

/- ===================== Section J: dates (C6, C10) ===================== -/

/-- Leap year test of the proleptic Gregorian calendar. -/
def isLeap (y : ℤ) : Bool := (y % 4 = 0 && !(y % 100 = 0)) || y % 400 = 0

/-- Number of days in a month of the proleptic Gregorian calendar. -/
def daysInMonth (y : ℤ) (m : ℕ) : ℕ :=
  if m = 2 then (if isLeap y then 29 else 28)
  else if m = 4 || m = 6 || m = 9 || m = 11 then 30
  else 31

/-- Days since the Unix epoch 1970-01-01 of a proleptic Gregorian calendar
date (the standard era-based civil-calendar conversion). -/
def daysFromCivil (y : ℤ) (m d : ℕ) : ℤ :=
  let yAdj : ℤ := if m ≤ 2 then y - 1 else y
  let era : ℤ := Int.fdiv yAdj 400
  let yoe : ℤ := yAdj - era * 400
  let mp : ℤ := ((m : ℤ) + 9) % 12
  let doy : ℤ := (153 * mp + 2) / 5 + (d : ℤ) - 1
  let doe : ℤ := yoe * 365 + yoe / 4 - yoe / 100 + doy
  era * 146097 + doe - 719468

example : daysFromCivil 1970 1 1 = 0 := by decide
example : daysFromCivil 1969 12 31 = -1 := by decide
example : daysFromCivil 2024 1 1 = 19723 := by decide
example : daysFromCivil 2024 6 10 = 19884 := by decide
example : daysFromCivil 2024 6 7 = 19881 := by decide
example : daysFromCivil 2000 2 29 = 11016 := by decide
example : daysFromCivil 2000 3 1 = 11017 := by decide
example : daysFromCivil 1900 3 1 = -25508 := by decide

/-- Modelled from the spec: the repository calls
`NullableSqliteDateTime::from_relative` (src/scraper.rs:55) but that
function's definition is not under src/, so its interval grammar is taken
from the spec (section 4.3, relative path): a phrase "N unit(s) ago" with
units hours, days, weeks, months (singular or plural), or a same-day phrase
"today"/"just now"; anything else is unrecognized.  The result is the
interval in seconds ("months" as 30 days, the spec fixes no month length). -/
def parseRelInterval (phrase : String) : Option ℤ :=
  let ws := (splitChar ' ' phrase.data).filter (fun w => !w.isEmpty)
  if ws = ["today".data] ∨ ws = ["just".data, "now".data] then some 0
  else
    match ws with
    | [numW, unitW, agoW] =>
      if agoW = "ago".data && !numW.isEmpty && numW.all isDigitCh then
        let n : ℤ := natOfDigits numW
        if unitW = "hour".data ∨ unitW = "hours".data then some (n * 3600)
        else if unitW = "day".data ∨ unitW = "days".data then some (n * 86400)
        else if unitW = "week".data ∨ unitW = "weeks".data then some (n * 604800)
        else if unitW = "month".data ∨ unitW = "months".data then some (n * 2592000)
        else none
      else none
    | _ => none

/-- Modelled from the spec: `NullableSqliteDateTime::from_relative` with an
injected anchor (spec section 4.3 requires the clock to be injectable): the
anchor `now` is an epoch-second timestamp; a recognized interval is
subtracted from `now` and the result truncated to midnight UTC, i.e. to its
epoch-day number; an unrecognized phrase yields an absent result. -/
def from_relative (phrase : String) (now : ℤ) : Option ℤ :=
  match parseRelInterval phrase with
  | some secs => some ((now - secs) / 86400)
  | none => none

example : from_relative "3 days ago" (19884 * 86400) = some 19881 := by decide
example : from_relative "2 weeks ago" (19884 * 86400) = some 19870 := by decide
example : from_relative "today" (19884 * 86400 + 3600) = some 19884 := by decide
example : from_relative "overmorrow" 12345 = none := by decide

/-- C6: for every anchor, the phrase "3 days ago" resolves to the calendar
date three days before the anchor's date (truncated to midnight UTC); with
anchor 2024-06-10 the result is 2024-06-07; and every phrase the parser does
not recognize yields an absent result rather than defaulting to today. -/
theorem C6_relative_date (now : ℤ) :
    from_relative "3 days ago" now = some (now / 86400 - 3) ∧
    from_relative "3 days ago" (daysFromCivil 2024 6 10 * 86400) =
      some (daysFromCivil 2024 6 7) ∧
    (∀ phrase : String, parseRelInterval phrase = none → from_relative phrase now = none) := by
  refine ⟨?_, by decide, ?_⟩
  · unfold from_relative
    rw [show parseRelInterval "3 days ago" = some 259200 from by decide]
    dsimp only
    congr 1
    omega
  · intro phrase hp
    unfold from_relative
    rw [hp]

/-- Closed witness for C6 at concrete inputs, discharging the hypotheses. -/
theorem C6_relative_date_witness :
    from_relative "3 days ago" 0 = some ((0 : ℤ) / 86400 - 3) ∧
    from_relative "overmorrow" 0 = none := by
  exact ⟨(C6_relative_date 0).1, (C6_relative_date 0).2.2 "overmorrow" (by decide)⟩

/-- Calendar validity of a year-month-day triple. -/
def validCalendar (y : ℤ) (m d : ℕ) : Bool :=
  decide (1 ≤ m) && decide (m ≤ 12) && decide (1 ≤ d) && decide (d ≤ daysInMonth y m)

/-- Offset tail of an RFC 3339 timestamp as accepted by chrono's
`DateTime::parse_from_rfc3339`: `Z`/`z`, or a signed `hh:mm` within
±23:59, as minutes east of UTC. -/
def offsetOf : List Char → Option ℤ
  | [c] => if c = 'Z' || c = 'z' then some 0 else none
  | [sg, a, b, col, x, y] =>
    if (sg = '+' || sg = '-') && col = ':' && [a, b, x, y].all isDigitCh then
      if natOfDigits [a, b] ≤ 23 && natOfDigits [x, y] ≤ 59 then
        some (if sg = '-' then -((natOfDigits [a, b] * 60 + natOfDigits [x, y] : ℕ) : ℤ)
              else ((natOfDigits [a, b] * 60 + natOfDigits [x, y] : ℕ) : ℤ))
      else none
    else none
  | _ => none

/-- Optional fractional seconds (a dot followed by at least one digit)
followed by the offset. -/
def fracOffset (t : List Char) : Option ℤ :=
  if t.head? = some '.' then
    if (t.tail.takeWhile isDigitCh).isEmpty then none
    else offsetOf (t.tail.dropWhile isDigitCh)
  else offsetOf t

/-- Model of chrono `DateTime::parse_from_rfc3339` (the call in
src/db/mod.rs:175): a strict RFC 3339 timestamp
`yyyy-mm-dd SEP hh:mm:ss[.frac] OFFSET` with `SEP` one of `T`/`t`/space,
calendar-validated date, `hh ≤ 23`, `mm ≤ 59`, `ss ≤ 60` (leap second
accepted), and the offset grammar of `offsetOf`.  Returns the parsed fields
`(year, month, day, hour, minute, second, offset-minutes)`. -/
def parseRfc3339 (l : List Char) :
    Option (ℤ × ℕ × ℕ × ℕ × ℕ × ℕ × ℤ) :=
  match l with
  | y1 :: y2 :: y3 :: y4 :: da1 :: m1 :: m2 :: da2 :: d1 :: d2 :: sep ::
      h1 :: h2 :: co1 :: mi1 :: mi2 :: co2 :: s1 :: s2 :: rest =>
    if [y1, y2, y3, y4, m1, m2, d1, d2, h1, h2, mi1, mi2, s1, s2].all isDigitCh
        && da1 = '-' && da2 = '-' && (sep = 'T' || sep = 't' || sep = ' ')
        && co1 = ':' && co2 = ':' then
      match fracOffset rest with
      | some off =>
        if validCalendar (natOfDigits [y1, y2, y3, y4]) (natOfDigits [m1, m2])
              (natOfDigits [d1, d2])
            && natOfDigits [h1, h2] ≤ 23 && natOfDigits [mi1, mi2] ≤ 59
            && natOfDigits [s1, s2] ≤ 60 then
          some ((natOfDigits [y1, y2, y3, y4] : ℤ), natOfDigits [m1, m2],
                natOfDigits [d1, d2], natOfDigits [h1, h2], natOfDigits [mi1, mi2],
                natOfDigits [s1, s2], off)
        else none
      | none => none
    else none
  | _ => none

/-- The calendar date, in UTC, of the instant denoted by parsed RFC 3339
fields: local civil time minus the offset, floored to its epoch day (a leap
second counts within its minute). -/
def utcEpochDay (y : ℤ) (m d hh mi ss : ℕ) (off : ℤ) : ℤ :=
  (daysFromCivil y m d * 86400 + (hh : ℤ) * 3600 + (mi : ℤ) * 60 + ((min ss 59 : ℕ) : ℤ)
    - off * 60) / 86400

/-- Embedding of `NullableSqliteDateTime::from_iso_str` (src/db/mod.rs:174-179):
parse the string as RFC 3339 (the `.expect` panic on failure is modelled as
`none`) and keep the UTC calendar date of the parsed instant. -/
def from_iso_str (s : String) : Option ℤ :=
  match parseRfc3339 s.data with
  | some (y, mo, dy, hh, mm, ss, off) => some (utcEpochDay y mo dy hh mm ss off)
  | none => none

example : from_iso_str "2024-06-10T12:00:00Z" = some 19884 := by decide
example : from_iso_str "2024-06-10T22:30:00-05:00" = some 19885 := by decide
example : from_iso_str "2024-06-11T01:30:00+05:00" = some 19884 := by decide
example : from_iso_str "2024-06-10 23:59:60.500z" = some 19884 := by decide
example : from_iso_str "not a timestamp" = none := by decide
example : from_iso_str "2024-02-30T00:00:00Z" = none := by decide
example : from_iso_str "2024-06-10T24:00:00Z" = none := by decide
example : from_iso_str "2024-06-10T12:00:00" = none := by decide
example : from_iso_str "2024-06-10T12:00:00+0500" = none := by decide

theorem parseRfc3339_shape {l : List Char} {y : ℤ} {mo dy hh mm ss : ℕ} {off : ℤ}
    (h : parseRfc3339 l = some (y, mo, dy, hh, mm, ss, off)) :
    ∃ y1 y2 y3 y4 m1 m2 d1 d2 sep h1 h2 mi1 mi2 s1 s2 t,
      l = y1 :: y2 :: y3 :: y4 :: '-' :: m1 :: m2 :: '-' :: d1 :: d2 :: sep ::
          h1 :: h2 :: ':' :: mi1 :: mi2 :: ':' :: s1 :: s2 :: t ∧
      [y1, y2, y3, y4, m1, m2, d1, d2, h1, h2, mi1, mi2, s1, s2].all isDigitCh = true ∧
      (sep = 'T' ∨ sep = 't' ∨ sep = ' ') ∧
      y = (natOfDigits [y1, y2, y3, y4] : ℤ) ∧ mo = natOfDigits [m1, m2] ∧
      dy = natOfDigits [d1, d2] ∧ hh = natOfDigits [h1, h2] ∧
      mm = natOfDigits [mi1, mi2] ∧ ss = natOfDigits [s1, s2] ∧
      validCalendar y mo dy = true ∧ hh ≤ 23 ∧ mm ≤ 59 ∧ ss ≤ 60 ∧
      fracOffset t = some off := by
  unfold parseRfc3339 at h
  split at h
  next y1 y2 y3 y4 da1 m1 m2 da2 d1 d2 sep h1 h2 co1 mi1 mi2 co2 s1 s2 rest =>
    split at h
    · rename_i hg
      simp only [Bool.and_eq_true, decide_eq_true_eq] at hg
      obtain ⟨⟨⟨⟨⟨hdig, hda1⟩, hda2⟩, hsep⟩, hco1⟩, hco2⟩ := hg
      cases hfo : fracOffset rest with
      | none => rw [hfo] at h; simp at h
      | some off2 =>
        rw [hfo] at h
        dsimp only at h
        split at h
        · rename_i hv
          simp only [Bool.and_eq_true, decide_eq_true_eq] at hv
          simp only [Option.some.injEq, Prod.mk.injEq] at h
          obtain ⟨hy, hmo, hdy, hhh, hmm, hss, hoff⟩ := h
          subst hy
          subst hmo
          subst hdy
          subst hhh
          subst hmm
          subst hss
          subst hoff
          subst hda1
          subst hda2
          subst hco1
          subst hco2
          refine ⟨y1, y2, y3, y4, m1, m2, d1, d2, sep, h1, h2, mi1, mi2, s1, s2, rest,
            rfl, hdig, ?_, rfl, rfl, rfl, rfl, rfl, rfl, hv.1.1.1, hv.1.1.2, hv.1.2, hv.2, hfo⟩
          simp only [Bool.or_eq_true, decide_eq_true_eq] at hsep
          tauto
        · simp at h
    · simp at h
  next => simp at h

/-- C10: `from_iso_str` yields a calendar date exactly when the input parses
as a strict RFC 3339 timestamp (malformed input is a hard error, modelled as
`none`, never a date value); on success the result is the calendar date of
the denoted instant converted to UTC, the parsed fields are exactly the
positional digit groups of the timestamp text, and the fields satisfy the
calendar and range validity checks.  Concretely, "2024-06-10T22:30:00-05:00"
(UTC instant 2024-06-11T03:30:00Z) yields 2024-06-11 and "not a timestamp"
fails. -/
theorem C10_from_iso_str (s : String) :
    ((from_iso_str s).isSome ↔ (parseRfc3339 s.data).isSome) ∧
    (∀ y mo dy hh mm ss off, parseRfc3339 s.data = some (y, mo, dy, hh, mm, ss, off) →
      from_iso_str s = some (utcEpochDay y mo dy hh mm ss off) ∧
      (∃ y1 y2 y3 y4 m1 m2 d1 d2 sep h1 h2 mi1 mi2 s1 s2 t,
        s.data = y1 :: y2 :: y3 :: y4 :: '-' :: m1 :: m2 :: '-' :: d1 :: d2 :: sep ::
            h1 :: h2 :: ':' :: mi1 :: mi2 :: ':' :: s1 :: s2 :: t ∧
        [y1, y2, y3, y4, m1, m2, d1, d2, h1, h2, mi1, mi2, s1, s2].all isDigitCh = true ∧
        (sep = 'T' ∨ sep = 't' ∨ sep = ' ') ∧
        y = (natOfDigits [y1, y2, y3, y4] : ℤ) ∧ mo = natOfDigits [m1, m2] ∧
        dy = natOfDigits [d1, d2] ∧ hh = natOfDigits [h1, h2] ∧
        mm = natOfDigits [mi1, mi2] ∧ ss = natOfDigits [s1, s2] ∧
        validCalendar y mo dy = true ∧ hh ≤ 23 ∧ mm ≤ 59 ∧ ss ≤ 60 ∧
        fracOffset t = some off)) ∧
    from_iso_str "2024-06-10T22:30:00-05:00" = some (daysFromCivil 2024 6 11) ∧
    from_iso_str "not a timestamp" = none := by
  refine ⟨?_, ?_, by decide, by decide⟩
  · unfold from_iso_str
    cases hp : parseRfc3339 s.data with
    | none => simp
    | some v =>
      obtain ⟨y, mo, dy, hh, mm, ss, off⟩ := v
      simp
  · intro y mo dy hh mm ss off hp
    constructor
    · unfold from_iso_str
      rw [hp]
    · exact parseRfc3339_shape hp

/-- Closed witness for C10 at a concrete input, discharging the hypothesis. -/
theorem C10_from_iso_str_witness :
    from_iso_str "2024-06-10T12:30:45Z" =
      some (utcEpochDay 2024 6 10 12 30 45 0) ∧
    (∃ y1 y2 y3 y4 m1 m2 d1 d2 sep h1 h2 mi1 mi2 s1 s2 t,
      ("2024-06-10T12:30:45Z" : String).data =
          y1 :: y2 :: y3 :: y4 :: '-' :: m1 :: m2 :: '-' :: d1 :: d2 :: sep ::
          h1 :: h2 :: ':' :: mi1 :: mi2 :: ':' :: s1 :: s2 :: t ∧
      [y1, y2, y3, y4, m1, m2, d1, d2, h1, h2, mi1, mi2, s1, s2].all isDigitCh = true ∧
      (sep = 'T' ∨ sep = 't' ∨ sep = ' ') ∧
      (2024 : ℤ) = (natOfDigits [y1, y2, y3, y4] : ℤ) ∧ 6 = natOfDigits [m1, m2] ∧
      10 = natOfDigits [d1, d2] ∧ 12 = natOfDigits [h1, h2] ∧
      30 = natOfDigits [mi1, mi2] ∧ 45 = natOfDigits [s1, s2] ∧
      validCalendar 2024 6 10 = true ∧ 12 ≤ 23 ∧ 30 ≤ 59 ∧ 45 ≤ 60 ∧
      fracOffset t = some 0) :=
  (C10_from_iso_str "2024-06-10T12:30:45Z").2.1 2024 6 10 12 30 45 0 (by rfl)
